import Mathlib

/-!
# The INI line parser of `config` (`read.go`)

A shallow embedding of `Config.read` and a verification of its line
classification.

Modelling decisions.

* A Go `string` is a `List Char`: the input is taken to be valid UTF-8 text and
  is represented by its sequence of code points.  Every byte the parser
  compares against (`#`, `;`, `[`, `]`, `=`, `:`, the letters of `rem`, the
  newline) is ASCII, so a byte test on the UTF-8 encoding and the same test on
  the code points agree, and slicing at the position of such a byte is slicing
  at the position of the code point.
* An index or slice expression is checked: it yields `none` where Go would
  panic with an out-of-range error.  Over code points the indices are those of
  the code points; what `read` returns and writes does not depend on the unit.
  Index safety itself is proved on a second embedding of the loop, `Bytes`,
  in which a string is any sequence of bytes and every index is a byte index.
* The `for` loop of `read` is driven by a fuel counter; `read` supplies more
  fuel than there are lines, and `readFrom_total` shows it never runs out.
* The store (`AddSection`, `AddOption`, `RawString`) and `stripComments` are
  defined in other files of the package.  `read` is embedded over an arbitrary
  implementation of them (`Collab`); `specCollab` is the implementation
  described by the specification.
-/

namespace Config

/-! ## Strings -/

/-- The Go `unicode.IsSpace`: the code points with the White_Space property. -/
def IsSpace (r : Char) : Bool :=
  let n := r.toNat
  n == 0x09 || n == 0x0A || n == 0x0B || n == 0x0C || n == 0x0D || n == 0x20 ||
  n == 0x85 || n == 0xA0 || n == 0x1680 || (0x2000 ≤ n && n ≤ 0x200A) ||
  n == 0x2028 || n == 0x2029 || n == 0x202F || n == 0x205F || n == 0x3000

/-- The Go `strings.TrimSpace`: all leading and trailing white space removed. -/
def TrimSpace (s : List Char) : List Char :=
  ((s.dropWhile IsSpace).reverse.dropWhile IsSpace).reverse

/-- Lower-casing of one code point, on the ASCII letters. -/
def toLowerRune (r : Char) : Char :=
  if 65 ≤ r.toNat ∧ r.toNat ≤ 90 then Char.ofNat (r.toNat + 32) else r

/-- The Go `strings.ToLower`, as far as the comparison with `"rem"` observes it:
ASCII upper-case letters are lowered and every other code point is kept (no
code point outside ASCII lowers to `r`, `e` or `m`). -/
def ToLower (s : List Char) : List Char := s.map toLowerRune

/-- Position of the first element satisfying `p`, or `-1`. -/
def indexWhere (p : Char → Bool) : List Char → Int
  | [] => -1
  | a :: s => if p a then 0 else if indexWhere p s < 0 then -1 else indexWhere p s + 1

/-- The Go `strings.IndexAny`: index of the first code point of `s` that occurs
in `chars`, or `-1`. -/
def IndexAny (s chars : List Char) : Int := indexWhere (fun a => chars.contains a) s

/-- The Go `len`. -/
def len (s : List Char) : Int := s.length

/-- The index expression `s[i]`; `none` is the out-of-range panic. -/
def index (s : List Char) (i : Int) : Option Char :=
  if 0 ≤ i ∧ i < len s then s.get? i.toNat else none

/-- The slice expression `s[lo:hi]`; `none` is the out-of-range panic. -/
def slice (s : List Char) (lo hi : Int) : Option (List Char) :=
  if 0 ≤ lo ∧ lo ≤ hi ∧ hi ≤ len s then some ((s.take hi.toNat).drop lo.toNat) else none

/-- Short-circuit `||` over operands that may panic. -/
def cor (a b : Option Bool) : Option Bool :=
  match a with
  | none => none
  | some true => some true
  | some false => b

/-- Short-circuit `&&` over operands that may panic. -/
def cand (a b : Option Bool) : Option Bool :=
  match a with
  | none => none
  | some false => some false
  | some true => b

/-! ## Errors and readers -/

/-- Go `error` values met by `read`. -/
inductive Error where
  /-- The value `io.EOF`. -/
  | EOF
  /-- The value `errors.New(text)`. -/
  | New (text : List Char)
  /-- Any other failure of the underlying reader. -/
  | Other (code : Nat)
  deriving DecidableEq, Repr

/-- An `io.Reader` behind a `bufio.Reader`: the text it still delivers and the
error it reports once the text is exhausted (`Error.EOF` for a reader that
never fails). -/
structure Reader where
  data : List Char
  err : Error
  deriving DecidableEq, Repr

/-- Splits `s` after the first occurrence of `delim`. -/
def splitAfter (delim : Char) : List Char → Option (List Char × List Char)
  | [] => none
  | a :: s =>
    if a = delim then some ([a], s)
    else match splitAfter delim s with
      | some (l, r) => some (a :: l, r)
      | none => none

/-- The method `bufio.Reader.ReadString`: reads up to and including the first
`delim`; when the reader's error comes first, returns what was read before it
together with that error. -/
def ReadString (buf : Reader) (delim : Char) : (List Char × Option Error) × Reader :=
  match splitAfter delim buf.data with
  | some (l, r) => ((l, none), { buf with data := r })
  | none => ((buf.data, some buf.err), { buf with data := [] })

/-! ## The collaborators of `read` -/

/-- The functions of the package that `read` calls and that live outside
`read.go`, over a store of type `σ`. -/
structure Collab (σ : Type) where
  /-- The method `c.AddSection(section)`; `read` ignores its result. -/
  AddSection : σ → List Char → σ
  /-- The method `c.AddOption(section, option, value)`; `read` ignores its result. -/
  AddOption : σ → List Char → List Char → List Char → σ
  /-- First result of `c.RawString(section, option)`; `read` drops the second. -/
  RawString : σ → List Char → List Char → List Char
  /-- The function `stripComments(l)`. -/
  stripComments : List Char → List Char

/-! ## `Config.read` -/

/-- The store together with the local variables `section` and `option`. -/
structure State (σ : Type) where
  c : σ
  sect : List Char
  option : List Char
  deriving DecidableEq, Repr

/-- What one pass through the loop body does after the line has been read. -/
inductive Step (σ : Type) where
  /-- The loop goes on (by `continue` or by reaching the end of the body). -/
  | next (st : State σ)
  /-- The statement `return err`. -/
  | ret (err : Error)
  deriving DecidableEq, Repr

/-- How a run ends. -/
inductive Outcome (α : Type) where
  | returned (a : α)
  | panicked
  | outOfFuel
  deriving DecidableEq, Repr

/-- The case `len(l) == 0, l[0] == '#', l[0] == ';'`. -/
def caseBlankOrComment (l : List Char) : Option Bool :=
  cor (some (len l == 0))
    (cor ((index l 0).map (fun a => a == '#')) ((index l 0).map (fun a => a == ';')))

/-- The case `len(l) >= 3 && strings.ToLower(l[0:3]) == "rem"`. -/
def caseRem (l : List Char) : Option Bool :=
  cand (some (decide (len l ≥ 3))) ((slice l 0 3).map (fun s => ToLower s == ['r', 'e', 'm']))

/-- The case `l[0] == '[' && l[len(l)-1] == ']'`. -/
def caseSection (l : List Char) : Option Bool :=
  cand ((index l 0).map (fun a => a == '[')) ((index l (len l - 1)).map (fun a => a == ']'))

/-- The text of the parse error, `"could not parse line: " + l`. -/
def parseError (l : List Char) : Error :=
  Error.New ("could not parse line: ".toList ++ l)

/-- The body of the `default:` case of the outer switch. -/
def caseDefault {σ : Type} (P : Collab σ) (st : State σ) (l : List Char) : Option (Step σ) :=
  let i := IndexAny l ['=', ':']
  if i > 0 then
    let i := IndexAny l ['=', ':']
    match slice l 0 i with
    | none => none
    | some name =>
      let option := TrimSpace name
      match slice l (i + 1) (len l) with
      | none => none
      | some rest =>
        let value := TrimSpace (P.stripComments rest)
        some (Step.next ⟨P.AddOption st.c st.sect option value, st.sect, option⟩)
  else if st.sect ≠ [] ∧ st.option ≠ [] then
    let prev := P.RawString st.c st.sect st.option
    let value := TrimSpace (P.stripComments l)
    some (Step.next ⟨P.AddOption st.c st.sect st.option (prev ++ ['\n'] ++ value), st.sect, st.option⟩)
  else
    some (Step.ret (parseError l))

/-- The loop body of `read` from `l = strings.TrimSpace(l)` on: the outer
switch on the trimmed line `l`.  The result `none` is a run-time panic. -/
def readLine {σ : Type} (P : Collab σ) (st : State σ) (l : List Char) : Option (Step σ) :=
  match caseBlankOrComment l with
  | none => none
  | some true => some (Step.next st)
  | some false =>
    match caseRem l with
    | none => none
    | some true => some (Step.next st)
    | some false =>
      match caseSection l with
      | none => none
      | some true =>
        match slice l 1 (len l - 1) with
        | none => none
        | some name =>
          let sect := TrimSpace name
          some (Step.next ⟨P.AddSection st.c sect, sect, []⟩)
      | some false => caseDefault P st l

/-- The `for` loop of `read`, with a bound on the number of iterations. -/
def readLoop {σ : Type} (P : Collab σ) :
    Nat → Reader → State σ → Outcome (State σ × Option Error)
  | 0, _, _ => Outcome.outOfFuel
  | fuel + 1, buf, st =>
    match ReadString buf '\n' with
    | ((_, some err), _) =>
      if err = Error.EOF then Outcome.returned (st, none)
      else Outcome.returned (st, some err)
    | ((l, none), buf1) =>
      match readLine P st (TrimSpace l) with
      | none => Outcome.panicked
      | some (Step.ret err) => Outcome.returned (st, some err)
      | some (Step.next st1) => readLoop P fuel buf1 st1

/-- The loop of `read` entered with the store and the locals in `st`. -/
def readFrom {σ : Type} (P : Collab σ) (rd : Reader) (st : State σ) :
    Outcome (State σ × Option Error) :=
  readLoop P (rd.data.length + 1) rd st

/-- The method `Config.read`: the loop entered with `section` and `option`
empty; it yields the store as it leaves it and the error it returns. -/
def read {σ : Type} (P : Collab σ) (c : σ) (rd : Reader) : Outcome (σ × Option Error) :=
  match readFrom P rd ⟨c, [], []⟩ with
  | Outcome.returned (st, err) => Outcome.returned (st.c, err)
  | Outcome.panicked => Outcome.panicked
  | Outcome.outOfFuel => Outcome.outOfFuel

/-! ## The store of the specification -/

/-- Modelled from the spec: the configuration store (the `Config` type is not
in `read.go`), a collection of named sections, each a mapping from option name
to string value. -/
abbrev Store := List (List Char × List (List Char × List Char))

/-- Modelled from the spec: setting `name` to `value` in the options of one
section (part of `addOption`, not in `read.go`): an existing option is
overwritten in place, a new one is added. -/
def setOption (name value : List Char) :
    List (List Char × List Char) → List (List Char × List Char)
  | [] => [(name, value)]
  | (n, v) :: os => if n = name then (n, value) :: os else (n, v) :: setOption name value os

/-- Modelled from the spec: `addSection(name)` (the method `AddSection` is not in
`read.go`); a section that already exists is reopened, not duplicated. -/
def specAddSection (c : Store) (name : List Char) : Store :=
  if c.any (fun s => s.1 == name) then c else c ++ [(name, [])]

/-- Modelled from the spec: setting an option in the section `sect` of a store
that has that section (part of `addOption`, not in `read.go`). -/
def setInSection (sect name value : List Char) : Store → Store
  | [] => []
  | (s, os) :: c =>
    if s = sect then (s, setOption name value os) :: c
    else (s, os) :: setInSection sect name value c

/-- Modelled from the spec: `addOption(section, name, value)` with overwrite
semantics (the method `AddOption` is not in `read.go`); the section is created
when the store does not have it yet. -/
def specAddOption (c : Store) (sect name value : List Char) : Store :=
  setInSection sect name value (specAddSection c sect)

/-- Modelled from the spec: `getRawValue(section, name)` (the method `RawString`
is not in `read.go`), `none` when the option is not found. -/
def specLookup (c : Store) (sect name : List Char) : Option (List Char) :=
  match c.find? (fun s => s.1 == sect) with
  | none => none
  | some s =>
    match s.2.find? (fun o => o.1 == name) with
    | none => none
    | some o => some o.2

/-- Modelled from the spec: inline comment stripping (the function
`stripComments` is not in `read.go`): the text before the first `#` or `;`
that is not the first character of the string. -/
def specStripComments : List Char → List Char
  | [] => []
  | a :: s => a :: s.takeWhile (fun b => !(b == '#' || b == ';'))

/-- The collaborators as the specification describes them. -/
def specCollab : Collab Store where
  AddSection := specAddSection
  AddOption := specAddOption
  RawString := fun c sect name => (specLookup c sect name).getD []
  stripComments := specStripComments

instance instDecidableEqStore : DecidableEq Store := instDecidableEqList


/-! ## Vocabulary of the line classes -/

/-- A line the loop skips: blank, a `#` or `;` comment, or a `rem` comment. -/
def Skipped (l : List Char) : Prop :=
  l = [] ∨ l.head? = some '#' ∨ l.head? = some ';' ∨ ToLower (l.take 3) = ['r', 'e', 'm']

instance (l : List Char) : Decidable (Skipped l) := by
  unfold Skipped; infer_instance

/-- A line that starts with `[` and ends with `]`. -/
def Bracketed (l : List Char) : Prop :=
  l.head? = some '[' ∧ l.getLast? = some ']'

instance (l : List Char) : Decidable (Bracketed l) := by
  unfold Bracketed; infer_instance

/-- A text made of whole lines: empty, or ending in a newline. -/
def WholeLines (t : List Char) : Prop :=
  t = [] ∨ t.getLast? = some '\n'

instance (t : List Char) : Decidable (WholeLines t) := by
  unfold WholeLines; infer_instance

/-- The text made of the given lines, each followed by a newline. -/
def unlines : List (List Char) → List Char
  | [] => []
  | m :: ms => m ++ '\n' :: unlines ms

/-- A line on which the loop returns the parse error when it meets it in the
state `st`: not blank, not a comment, not a section header, with no `=` or `:`
at all or with the first one as its first character (`IndexAny` is `-1` or
`0`), with no current section or no current option. -/
def Unparsable {σ : Type} (st : State σ) (l : List Char) : Prop :=
  ¬ Skipped l ∧ ¬ Bracketed l ∧ IndexAny l ['=', ':'] ≤ 0 ∧ (st.sect = [] ∨ st.option = [])

/-! ## Vocabulary of the store of the specification -/

/-- Modelled from the spec: the options of the section `sect` of the store (the
mapping from option name to value that a section is). -/
def specOptions (c : Store) (sect : List Char) : List (List Char × List Char) :=
  match c.find? (fun s => s.1 == sect) with
  | none => []
  | some s => s.2

/-- Modelled from the spec: the invariant of the data model that option names
are unique within a section. -/
def UniqueOptions (c : Store) : Prop :=
  ∀ s ∈ c, (s.2.map Prod.fst).Nodup

instance (c : Store) : Decidable (UniqueOptions c) := by
  unfold UniqueOptions; infer_instance

/-! ## Vocabulary of normalised names -/

/-- A string without leading and without trailing white space. -/
def Trimmed (s : List Char) : Prop :=
  s.head?.all (fun a => !IsSpace a) = true ∧ s.getLast?.all (fun a => !IsSpace a) = true

instance (s : List Char) : Decidable (Trimmed s) := by
  unfold Trimmed; infer_instance

/-- Modelled from the spec: the store has a section named `sect` (the store is
not in `read.go`). -/
def specHasSection (c : Store) (sect : List Char) : Bool :=
  c.any (fun s => s.1 == sect)

/-! ## Vocabulary of later writes to an option -/

/-- Processing the trimmed line `l` in the state `st` writes the option `n` of
the section `sect`: `l` is a key/value line with the name `n` read while `sect`
is current, or a continuation line read while `sect` and `n` are current. -/
def WritesOption {σ : Type} (st : State σ) (l sect n : List Char) : Prop :=
  ¬ Skipped l ∧ ¬ Bracketed l ∧ st.sect = sect ∧
    ((0 < IndexAny l ['=', ':'] ∧ TrimSpace (l.take (IndexAny l ['=', ':']).toNat) = n) ∨
      (IndexAny l ['=', ':'] ≤ 0 ∧ st.sect ≠ [] ∧ st.option ≠ [] ∧ st.option = n))

instance {σ : Type} (st : State σ) (l sect n : List Char) :
    Decidable (WritesOption st l sect n) := by
  unfold WritesOption; infer_instance

/-- None of the lines `ls`, processed by the loop body one after the other from
the state `st` for as long as the loop goes on, writes the option `n` of the
section `sect`. -/
def noLaterWrite {σ : Type} (P : Collab σ) (sect n : List Char) :
    State σ → List (List Char) → Bool
  | _, [] => true
  | st, raw :: ls =>
    !(decide (WritesOption st (TrimSpace raw) sect n)) &&
      match readLine P st (TrimSpace raw) with
      | some (Step.next st1) => noLaterWrite P sect n st1 ls
      | _ => true

/-! ## `Config.read` over bytes

The same loop with a Go `string` as the sequence of its bytes, whatever they
are (valid UTF-8 or not): `len`, the index and slice expressions and
`IndexAny` count bytes, as in Go.  The library functions `strings.TrimSpace`
and `strings.ToLower` are parameters: index safety does not depend on what they
return. -/

namespace Bytes

/-- The Go `len`: the number of bytes of the string. -/
def len (s : List Nat) : Int := s.length

/-- The index expression `s[i]` on bytes; `none` is the out-of-range panic. -/
def index (s : List Nat) (i : Int) : Option Nat :=
  if 0 ≤ i ∧ i < len s then s.get? i.toNat else none

/-- The slice expression `s[lo:hi]` on bytes; `none` is the out-of-range panic. -/
def slice (s : List Nat) (lo hi : Int) : Option (List Nat) :=
  if 0 ≤ lo ∧ lo ≤ hi ∧ hi ≤ len s then some ((s.take hi.toNat).drop lo.toNat) else none

/-- The bytes of a string constant of the source; the constants are ASCII, one
byte for each character. -/
def ascii (s : String) : List Nat := s.toList.map Char.toNat

/-- Position of the first byte satisfying `p`, or `-1`. -/
def indexWhere (p : Nat → Bool) : List Nat → Int
  | [] => -1
  | a :: s => if p a then 0 else if indexWhere p s < 0 then -1 else indexWhere p s + 1

/-- The Go `strings.IndexAny` for a set `chars` of ASCII characters: the byte
index of the first byte of `s` that is one of them, or `-1` (an ASCII byte is
never part of the encoding of another character, and is decoded as itself also
in a string that is not valid UTF-8). -/
def IndexAny (s chars : List Nat) : Int := indexWhere (fun a => chars.contains a) s

/-- Go `error` values met by `read`. -/
inductive Error where
  /-- The value `io.EOF`. -/
  | EOF
  /-- The value `errors.New(text)`. -/
  | New (text : List Nat)
  /-- Any other failure of the underlying reader. -/
  | Other (code : Nat)
  deriving DecidableEq, Repr

/-- An `io.Reader` behind a `bufio.Reader`: the bytes it still delivers and the
error it reports once they are exhausted. -/
structure Reader where
  data : List Nat
  err : Error
  deriving DecidableEq, Repr

/-- Splits `s` after the first occurrence of the byte `delim`. -/
def splitAfter (delim : Nat) : List Nat → Option (List Nat × List Nat)
  | [] => none
  | a :: s =>
    if a = delim then some ([a], s)
    else match splitAfter delim s with
      | some (l, r) => some (a :: l, r)
      | none => none

/-- The method `bufio.Reader.ReadString`: reads up to and including the first
`delim`; when the reader's error comes first, returns what was read before it
together with that error. -/
def ReadString (buf : Reader) (delim : Nat) : (List Nat × Option Error) × Reader :=
  match splitAfter delim buf.data with
  | some (l, r) => ((l, none), { buf with data := r })
  | none => ((buf.data, some buf.err), { buf with data := [] })

/-- The functions of the `strings` package that `read` calls, as arbitrary
functions on bytes. -/
structure Lib where
  /-- The function `strings.TrimSpace`. -/
  TrimSpace : List Nat → List Nat
  /-- The function `strings.ToLower`. -/
  ToLower : List Nat → List Nat

/-- The functions of the package that `read` calls and that live outside
`read.go`, over a store of type `σ`. -/
structure Collab (σ : Type) where
  /-- The method `c.AddSection(section)`; `read` ignores its result. -/
  AddSection : σ → List Nat → σ
  /-- The method `c.AddOption(section, option, value)`; `read` ignores its result. -/
  AddOption : σ → List Nat → List Nat → List Nat → σ
  /-- First result of `c.RawString(section, option)`; `read` drops the second. -/
  RawString : σ → List Nat → List Nat → List Nat
  /-- The function `stripComments(l)`. -/
  stripComments : List Nat → List Nat

/-- The store together with the local variables `section` and `option`. -/
structure State (σ : Type) where
  c : σ
  sect : List Nat
  option : List Nat

/-- What one pass through the loop body does after the line has been read. -/
inductive Step (σ : Type) where
  /-- The loop goes on (by `continue` or by reaching the end of the body). -/
  | next (st : State σ)
  /-- The statement `return err`. -/
  | ret (err : Error)

/-- The case `len(l) == 0, l[0] == '#', l[0] == ';'`. -/
def caseBlankOrComment (l : List Nat) : Option Bool :=
  cor (some (len l == 0))
    (cor ((index l 0).map (fun a => a == Char.toNat '#'))
      ((index l 0).map (fun a => a == Char.toNat ';')))

/-- The case `len(l) >= 3 && strings.ToLower(l[0:3]) == "rem"`. -/
def caseRem (L : Lib) (l : List Nat) : Option Bool :=
  cand (some (decide (len l ≥ 3))) ((slice l 0 3).map (fun s => L.ToLower s == ascii "rem"))

/-- The case `l[0] == '[' && l[len(l)-1] == ']'`. -/
def caseSection (l : List Nat) : Option Bool :=
  cand ((index l 0).map (fun a => a == Char.toNat '['))
    ((index l (len l - 1)).map (fun a => a == Char.toNat ']'))

/-- The text of the parse error, `"could not parse line: " + l`. -/
def parseError (l : List Nat) : Error :=
  Error.New (ascii "could not parse line: " ++ l)

/-- The body of the `default:` case of the outer switch. -/
def caseDefault {σ : Type} (L : Lib) (P : Collab σ) (st : State σ) (l : List Nat) :
    Option (Step σ) :=
  let i := IndexAny l (ascii "=:")
  if i > 0 then
    let i := IndexAny l (ascii "=:")
    match slice l 0 i with
    | none => none
    | some name =>
      let option := L.TrimSpace name
      match slice l (i + 1) (len l) with
      | none => none
      | some rest =>
        let value := L.TrimSpace (P.stripComments rest)
        some (Step.next ⟨P.AddOption st.c st.sect option value, st.sect, option⟩)
  else if st.sect ≠ [] ∧ st.option ≠ [] then
    let prev := P.RawString st.c st.sect st.option
    let value := L.TrimSpace (P.stripComments l)
    some (Step.next
      ⟨P.AddOption st.c st.sect st.option (prev ++ ascii "\n" ++ value), st.sect, st.option⟩)
  else
    some (Step.ret (parseError l))

/-- The loop body of `read` from `l = strings.TrimSpace(l)` on: the outer
switch on the trimmed line `l`.  The result `none` is a run-time panic. -/
def readLine {σ : Type} (L : Lib) (P : Collab σ) (st : State σ) (l : List Nat) :
    Option (Step σ) :=
  match caseBlankOrComment l with
  | none => none
  | some true => some (Step.next st)
  | some false =>
    match caseRem L l with
    | none => none
    | some true => some (Step.next st)
    | some false =>
      match caseSection l with
      | none => none
      | some true =>
        match slice l 1 (len l - 1) with
        | none => none
        | some name =>
          let sect := L.TrimSpace name
          some (Step.next ⟨P.AddSection st.c sect, sect, []⟩)
      | some false => caseDefault L P st l

/-- The `for` loop of `read`, with a bound on the number of iterations. -/
def readLoop {σ : Type} (L : Lib) (P : Collab σ) :
    Nat → Reader → State σ → Outcome (State σ × Option Error)
  | 0, _, _ => Outcome.outOfFuel
  | fuel + 1, buf, st =>
    match ReadString buf (Char.toNat '\n') with
    | ((_, some err), _) =>
      if err = Error.EOF then Outcome.returned (st, none)
      else Outcome.returned (st, some err)
    | ((l, none), buf1) =>
      match readLine L P st (L.TrimSpace l) with
      | none => Outcome.panicked
      | some (Step.ret err) => Outcome.returned (st, some err)
      | some (Step.next st1) => readLoop L P fuel buf1 st1

/-- The method `Config.read` on bytes: the loop entered with `section` and
`option` empty and more fuel than the input has lines; it yields the store as it
leaves it and the error it returns. -/
def read {σ : Type} (L : Lib) (P : Collab σ) (c : σ) (rd : Reader) :
    Outcome (σ × Option Error) :=
  match readLoop L P (rd.data.length + 1) rd ⟨c, [], []⟩ with
  | Outcome.returned (st, err) => Outcome.returned (st.c, err)
  | Outcome.panicked => Outcome.panicked
  | Outcome.outOfFuel => Outcome.outOfFuel

end Bytes

/-! ## Reading lines -/

theorem splitAfter_of_not_mem (d : Char) (s : List Char) (h : d ∉ s) :
    splitAfter d s = none := by
  induction s with
  | nil => rfl
  | cons a s ih =>
    have h1 : a ≠ d := fun e => h (by simp [e])
    have h2 : d ∉ s := fun e => h (by simp [e])
    simp [splitAfter, h1, ih h2]

theorem splitAfter_append (d : Char) (raw rest : List Char) (h : d ∉ raw) :
    splitAfter d (raw ++ d :: rest) = some (raw ++ [d], rest) := by
  induction raw with
  | nil => simp [splitAfter]
  | cons a s ih =>
    have h1 : a ≠ d := fun e => h (by simp [e])
    have h2 : d ∉ s := fun e => h (by simp [e])
    simp [splitAfter, h1, ih h2]

theorem splitAfter_length (d : Char) (s l r : List Char)
    (h : splitAfter d s = some (l, r)) : r.length < s.length := by
  induction s generalizing l with
  | nil => simp [splitAfter] at h
  | cons a s ih =>
    simp only [splitAfter] at h
    split at h
    · simp at h; simp [h.2]
    · cases hs : splitAfter d s with
      | none => simp [hs] at h
      | some q =>
        obtain ⟨l1, r1⟩ := q
        simp [hs] at h
        have := ih l1 (by rw [hs, h.2])
        simp; omega

theorem isSpace_newline : IsSpace '\n' = true := by decide

theorem TrimSpace_concat (s : List Char) (a : Char) (h : IsSpace a = true) :
    TrimSpace (s ++ [a]) = TrimSpace s := by
  unfold TrimSpace
  rw [List.dropWhile_append]
  by_cases he : (List.dropWhile IsSpace s).isEmpty = true
  · have : List.dropWhile IsSpace s = [] := by simpa using he
    simp [this, h]
  · simp [he, h]

theorem readLoop_fuel {σ : Type} (P : Collab σ) :
    ∀ (n m : Nat) (buf : Reader) (st : State σ),
      buf.data.length < n → buf.data.length < m → readLoop P n buf st = readLoop P m buf st := by
  intro n
  induction n with
  | zero => intro m buf st h; omega
  | succ n ih =>
    intro m buf st hn hm
    cases m with
    | zero => omega
    | succ m =>
      simp only [readLoop, ReadString]
      cases hs : splitAfter '\n' buf.data with
      | none => rfl
      | some q =>
        obtain ⟨l, r⟩ := q
        have hlen := splitAfter_length _ _ _ _ hs
        simp only []
        cases readLine P st (TrimSpace l) with
        | none => rfl
        | some s =>
          cases s with
          | ret err => rfl
          | next st1 => exact ih m ⟨r, buf.err⟩ st1 (by simp; omega) (by simp; omega)

/-- One pass of the loop over a newline-terminated line. -/
theorem readFrom_line {σ : Type} (P : Collab σ) (raw rest : List Char) (e : Error)
    (st : State σ) (h : '\n' ∉ raw) :
    readFrom P ⟨raw ++ '\n' :: rest, e⟩ st =
      match readLine P st (TrimSpace raw) with
      | none => Outcome.panicked
      | some (Step.ret err) => Outcome.returned (st, some err)
      | some (Step.next st1) => readFrom P ⟨rest, e⟩ st1 := by
  have hstep : readLoop P ((raw ++ '\n' :: rest).length + 1) ⟨raw ++ '\n' :: rest, e⟩ st =
      match readLine P st (TrimSpace raw) with
      | none => Outcome.panicked
      | some (Step.ret err) => Outcome.returned (st, some err)
      | some (Step.next st1) => readLoop P (raw ++ '\n' :: rest).length ⟨rest, e⟩ st1 := by
    simp only [readLoop, ReadString, splitAfter_append _ _ _ h,
      TrimSpace_concat _ _ isSpace_newline]
  unfold readFrom
  simp only [hstep]
  cases readLine P st (TrimSpace raw) with
  | none => rfl
  | some s =>
    cases s with
    | ret err => rfl
    | next st1 =>
      apply readLoop_fuel P _ _ ⟨rest, e⟩ st1
      · simp; omega
      · simp

/-- The loop on a text without newline: the text is dropped and the loop ends
on the reader's error. -/
theorem readFrom_last {σ : Type} (P : Collab σ) (t : List Char) (e : Error)
    (st : State σ) (h : '\n' ∉ t) :
    readFrom P ⟨t, e⟩ st =
      if e = Error.EOF then Outcome.returned (st, none) else Outcome.returned (st, some e) := by
  simp only [readFrom, readLoop, ReadString, splitAfter_of_not_mem _ _ h]


/-! ## The loop body, case by case -/

theorem index_zero (l : List Char) : index l 0 = l.head? := by
  cases l <;> simp [index, len]

theorem index_last (l : List Char) (h : l ≠ []) : index l (len l - 1) = l.getLast? := by
  have hpos : 0 < l.length := List.length_pos.mpr h
  have h1 : (0 : Int) ≤ (l.length : Int) - 1 ∧ (l.length : Int) - 1 < (l.length : Int) := by
    omega
  have h2 : ((l.length : Int) - 1).toNat = l.length - 1 := by omega
  simp only [index, len, h1, h2]
  simp [List.getLast?_eq_getElem?]

theorem slice_zero (l : List Char) (i : Int) (h0 : 0 ≤ i) (h1 : i ≤ len l) :
    slice l 0 i = some (l.take i.toNat) := by
  simp [slice, h0, h1]

theorem slice_to_end (l : List Char) (i : Int) (h0 : 0 ≤ i) (h1 : i ≤ len l) :
    slice l i (len l) = some (l.drop i.toNat) := by
  simp only [len] at h1
  simp [slice, h0, h1, len]

theorem slice_inner (l : List Char) (h : 2 ≤ l.length) :
    slice l 1 (len l - 1) = some (l.tail.dropLast) := by
  have h1 : (1 : Int) ≤ (l.length : Int) - 1 := by omega
  have h2 : ((l.length : Int) - 1).toNat = l.length - 1 := by omega
  simp only [slice, len, h1, h2]
  simp only [List.dropLast_eq_take, List.length_tail]
  rw [← List.drop_one, List.drop_take]
  simp

theorem indexWhere_ge (p : Char → Bool) (s : List Char) : -1 ≤ indexWhere p s := by
  induction s with
  | nil => simp [indexWhere]
  | cons a s ih =>
    simp only [indexWhere]
    split
    · omega
    · split <;> omega

theorem indexWhere_lt (p : Char → Bool) (s : List Char) : indexWhere p s < s.length := by
  induction s with
  | nil => simp [indexWhere]
  | cons a s ih =>
    simp only [indexWhere, List.length_cons]
    split
    · omega
    · split <;> omega

theorem Bracketed.length_ge {l : List Char} (h : Bracketed l) : 2 ≤ l.length := by
  obtain ⟨h1, h2⟩ := h
  match l, h1, h2 with
  | [a], h1, h2 =>
    simp at h1 h2
    rw [h1] at h2
    exact absurd h2 (by decide)
  | _ :: _ :: _, _, _ => simp

theorem Bracketed.not_skipped {l : List Char} (h : Bracketed l) : ¬ Skipped l := by
  obtain ⟨h1, _⟩ := h
  match l, h1 with
  | a :: s, h1 =>
    simp at h1
    subst h1
    unfold Skipped
    simp only [List.head?_cons, reduceCtorEq, false_or]
    intro hs
    rcases hs with hs | hs | hs
    · exact absurd hs (by decide)
    · exact absurd hs (by decide)
    · cases s with
      | nil => simp [ToLower] at hs
      | cons b s =>
        cases s with
        | nil => simp [ToLower] at hs
        | cons c s =>
          simp only [ToLower, List.take_succ_cons, List.take_zero, List.map_cons, List.map_nil,
            List.cons.injEq] at hs
          exact absurd hs.1 (by decide)

theorem caseBlankOrComment_eq (l : List Char) :
    caseBlankOrComment l =
      some (decide (l = [] ∨ l.head? = some '#' ∨ l.head? = some ';')) := by
  cases l with
  | nil => simp [caseBlankOrComment, cor, len]
  | cons a s =>
    have hz : (len (a :: s) == 0) = false := by
      simp only [len, List.length_cons, beq_eq_false_iff_ne]
      omega
    simp only [caseBlankOrComment, index_zero, hz]
    by_cases h1 : a = '#'
    · simp [cor, h1]
    · by_cases h2 : a = ';'
      · simp [cor, h2]
      · simp [cor, beq_false_of_ne h1, beq_false_of_ne h2, h1, h2]

theorem caseRem_eq (l : List Char) :
    caseRem l = some (decide (ToLower (l.take 3) = ['r', 'e', 'm'])) := by
  by_cases h : 3 ≤ l.length
  · have h3 : (3 : Int) ≤ len l := by simp only [len]; omega
    have h4 : len l ≥ 3 := h3
    have e : slice l 0 3 = some (l.take 3) := slice_zero l 3 (by omega) h3
    simp only [caseRem, cand, h4, e, decide_True, Option.map_some']
    by_cases he : ToLower (l.take 3) = ['r', 'e', 'm']
    · simp [he]
    · simp [he, beq_false_of_ne he]
  · have h3 : ¬ len l ≥ 3 := by simp only [len]; omega
    have h4 : ToLower (l.take 3) ≠ ['r', 'e', 'm'] := by
      intro he
      have := congrArg List.length he
      simp [ToLower] at this
      omega
    simp [caseRem, cand, h3, h4]

theorem caseSection_eq (l : List Char) (h : l ≠ []) :
    caseSection l = some (decide (Bracketed l)) := by
  obtain ⟨a, ha⟩ : ∃ a, l.head? = some a := by
    cases l with
    | nil => exact absurd rfl h
    | cons a s => exact ⟨a, rfl⟩
  obtain ⟨b, hb⟩ : ∃ b, l.getLast? = some b := by
    cases hl : l.getLast? with
    | none => simp at hl; exact absurd hl h
    | some b => exact ⟨b, rfl⟩
  simp only [caseSection, index_zero, index_last l h, Bracketed, ha, hb]
  by_cases h1 : a = '['
  · by_cases h2 : b = ']'
    · simp [cand, h1, h2]
    · simp [cand, h1, h2]
  · simp [cand, beq_false_of_ne h1, h1]

/-- The default case never panics and takes one of its three branches. -/
theorem caseDefault_eq {σ : Type} (P : Collab σ) (st : State σ) (l : List Char) :
    caseDefault P st l =
      some (if 0 < IndexAny l ['=', ':'] then
          Step.next ⟨P.AddOption st.c st.sect
              (TrimSpace (l.take (IndexAny l ['=', ':']).toNat))
              (TrimSpace (P.stripComments (l.drop ((IndexAny l ['=', ':']).toNat + 1)))),
            st.sect, TrimSpace (l.take (IndexAny l ['=', ':']).toNat)⟩
        else if st.sect ≠ [] ∧ st.option ≠ [] then
          Step.next ⟨P.AddOption st.c st.sect st.option
              (P.RawString st.c st.sect st.option ++ ['\n'] ++ TrimSpace (P.stripComments l)),
            st.sect, st.option⟩
        else Step.ret (parseError l)) := by
  have hlt : IndexAny l ['=', ':'] < len l := indexWhere_lt _ l
  unfold caseDefault
  by_cases hi : 0 < IndexAny l ['=', ':']
  · have e1 := slice_zero l (IndexAny l ['=', ':']) (by omega) (by omega)
    have e2 := slice_to_end l (IndexAny l ['=', ':'] + 1) (by omega) (by omega)
    have e3 : (IndexAny l ['=', ':'] + 1).toNat = (IndexAny l ['=', ':']).toNat + 1 := by omega
    simp [hi, e1, e2, e3]
  · by_cases hc : st.sect ≠ [] ∧ st.option ≠ []
    · simp [hi, hc]
    · simp only [gt_iff_lt, hi, hc, if_false]

/-- The loop body never panics; it acts by the class of the trimmed line. -/
theorem readLine_eq {σ : Type} (P : Collab σ) (st : State σ) (l : List Char) :
    readLine P st l =
      if Skipped l then some (Step.next st)
      else if Bracketed l then
        some (Step.next ⟨P.AddSection st.c (TrimSpace l.tail.dropLast),
          TrimSpace l.tail.dropLast, []⟩)
      else caseDefault P st l := by
  unfold readLine
  rw [caseBlankOrComment_eq, caseRem_eq]
  by_cases h1 : l = [] ∨ l.head? = some '#' ∨ l.head? = some ';'
  · have hs : Skipped l := by
      unfold Skipped
      tauto
    simp [h1, hs]
  · have hne : l ≠ [] := fun e => h1 (Or.inl e)
    rw [caseSection_eq l hne]
    by_cases h2 : ToLower (l.take 3) = ['r', 'e', 'm']
    · have hs : Skipped l := by
        unfold Skipped
        tauto
      simp [h1, h2, hs]
    · have hs : ¬ Skipped l := by
        unfold Skipped
        tauto
      by_cases h3 : Bracketed l
      · simp [h1, h2, hs, h3, slice_inner l h3.length_ge]
      · simp [h1, h2, hs, h3]


/-! ## Texts as sequences of lines -/

theorem split_first (d : Char) (t : List Char) (h : d ∈ t) :
    ∃ raw rest, d ∉ raw ∧ t = raw ++ d :: rest := by
  induction t with
  | nil => simp at h
  | cons a s ih =>
    by_cases ha : a = d
    · exact ⟨[], s, by simp, by simp [ha]⟩
    · have hs : d ∈ s := by
        rcases List.mem_cons.mp h with h1 | h1
        · exact absurd h1.symm ha
        · exact h1
      obtain ⟨raw, rest, h1, h2⟩ := ih hs
      refine ⟨a :: raw, rest, ?_, by simp [h2]⟩
      intro hm
      rcases List.mem_cons.mp hm with h3 | h3
      · exact ha h3.symm
      · exact h1 h3

theorem getLast?_cons_of_ne_nil (a : Char) (s : List Char) (h : s ≠ []) :
    (a :: s).getLast? = s.getLast? := by
  cases s with
  | nil => exact absurd rfl h
  | cons b s => simp [List.getLast?_cons_cons]

theorem wholeLines_tail (raw rest : List Char) (h : WholeLines (raw ++ '\n' :: rest)) :
    WholeLines rest := by
  unfold WholeLines at *
  by_cases hr : rest = []
  · exact Or.inl hr
  · right
    rcases h with h | h
    · simp at h
    · rw [List.getLast?_append_of_ne_nil _ (by simp), getLast?_cons_of_ne_nil _ _ hr] at h
      exact h

theorem wholeLines_line (raw rest : List Char) (h : WholeLines rest) :
    WholeLines (raw ++ '\n' :: rest) := by
  unfold WholeLines at *
  right
  rcases h with h | h
  · subst h
    exact List.getLast?_concat raw
  · have hr : rest ≠ [] := by
      intro e
      simp [e] at h
    rw [List.getLast?_append_of_ne_nil _ (by simp), getLast?_cons_of_ne_nil _ _ hr]
    exact h

theorem wholeLines_cases (t : List Char) (h : WholeLines t) :
    t = [] ∨ ∃ raw rest, '\n' ∉ raw ∧ t = raw ++ '\n' :: rest ∧ WholeLines rest := by
  by_cases ht : t = []
  · exact Or.inl ht
  · right
    have hm : '\n' ∈ t := by
      rcases h with h | h
      · exact absurd h ht
      · exact List.mem_of_getLast?_eq_some h
    obtain ⟨raw, rest, h1, h2⟩ := split_first _ _ hm
    exact ⟨raw, rest, h1, h2, wholeLines_tail raw rest (h2 ▸ h)⟩

/-- The loop over whole lines followed by more text: the whole lines are
processed first and, unless they make `read` return an error, the rest is
processed from the state they leave. -/
theorem readFrom_append {σ : Type} (P : Collab σ) (rest : List Char) (e : Error) :
    ∀ (n : Nat) (pre : List Char) (st : State σ), pre.length ≤ n → WholeLines pre →
      readFrom P ⟨pre ++ rest, e⟩ st =
        match readFrom P ⟨pre, Error.EOF⟩ st with
        | Outcome.returned (st1, none) => readFrom P ⟨rest, e⟩ st1
        | r => r := by
  intro n
  induction n with
  | zero =>
    intro pre st hn _
    have hp : pre = [] := List.length_eq_zero.mp (by omega)
    subst hp
    simp [readFrom_last P [] Error.EOF st (by simp)]
  | succ n ih =>
    intro pre st hn hw
    rcases wholeLines_cases pre hw with hp | ⟨raw, tl, h1, h2, h3⟩
    · subst hp
      simp [readFrom_last P [] Error.EOF st (by simp)]
    · subst h2
      rw [List.append_assoc, List.cons_append, readFrom_line P raw _ e st h1,
        readFrom_line P raw _ Error.EOF st h1]
      cases readLine P st (TrimSpace raw) with
      | none => rfl
      | some s =>
        cases s with
        | ret err => rfl
        | next st1 =>
          exact ih tl st1 (by simp at hn; omega) h3

/-- The loop always returns: it neither panics nor runs out of fuel. -/
theorem readFrom_total {σ : Type} (P : Collab σ) (e : Error) :
    ∀ (n : Nat) (t : List Char) (st : State σ), t.length ≤ n →
      ∃ st1 err, readFrom P ⟨t, e⟩ st = Outcome.returned (st1, err) := by
  intro n
  induction n with
  | zero =>
    intro t st hn
    have hp : t = [] := List.length_eq_zero.mp (by omega)
    subst hp
    rw [readFrom_last P [] e st (by simp)]
    split <;> exact ⟨_, _, rfl⟩
  | succ n ih =>
    intro t st hn
    by_cases hm : '\n' ∈ t
    · obtain ⟨raw, rest, h1, h2⟩ := split_first _ _ hm
      subst h2
      rw [readFrom_line P raw rest e st h1, readLine_eq, caseDefault_eq]
      have hlen : rest.length ≤ n := by simp at hn; omega
      split_ifs <;> first | exact ih rest _ hlen | exact ⟨_, _, rfl⟩
    · rw [readFrom_last P t e st hm]
      split <;> exact ⟨_, _, rfl⟩

theorem read_eq {σ : Type} (P : Collab σ) (c : σ) (rd : Reader) (st1 : State σ)
    (err : Option Error) (h : readFrom P rd ⟨c, [], []⟩ = Outcome.returned (st1, err)) :
    read P c rd = Outcome.returned (st1.c, err) := by
  simp [read, h]


/-! ## Single lines in the loop -/

theorem readFrom_key_value {σ : Type} (P : Collab σ) (raw rest l : List Char) (e : Error)
    (st : State σ) (hraw : '\n' ∉ raw) (hl : TrimSpace raw = l) (hskip : ¬ Skipped l)
    (hsec : ¬ Bracketed l) (hi : 0 < IndexAny l ['=', ':']) :
    readFrom P ⟨raw ++ '\n' :: rest, e⟩ st =
      readFrom P ⟨rest, e⟩
        ⟨P.AddOption st.c st.sect (TrimSpace (l.take (IndexAny l ['=', ':']).toNat))
            (TrimSpace (P.stripComments (l.drop ((IndexAny l ['=', ':']).toNat + 1)))),
          st.sect, TrimSpace (l.take (IndexAny l ['=', ':']).toNat)⟩ := by
  rw [readFrom_line P raw rest e st hraw, hl, readLine_eq, caseDefault_eq]
  simp [hskip, hsec, hi]

theorem readFrom_continuation {σ : Type} (P : Collab σ) (raw rest l : List Char) (e : Error)
    (st : State σ) (hraw : '\n' ∉ raw) (hl : TrimSpace raw = l) (hskip : ¬ Skipped l)
    (hsec : ¬ Bracketed l) (hi : IndexAny l ['=', ':'] ≤ 0)
    (hs : st.sect ≠ []) (ho : st.option ≠ []) :
    readFrom P ⟨raw ++ '\n' :: rest, e⟩ st =
      readFrom P ⟨rest, e⟩
        ⟨P.AddOption st.c st.sect st.option
            (P.RawString st.c st.sect st.option ++ ['\n'] ++ TrimSpace (P.stripComments l)),
          st.sect, st.option⟩ := by
  rw [readFrom_line P raw rest e st hraw, hl, readLine_eq, caseDefault_eq]
  have hi1 : ¬ 0 < IndexAny l ['=', ':'] := by omega
  simp [hskip, hsec, hi1, hs, ho]

theorem readFrom_skipped {σ : Type} (P : Collab σ) (raw rest : List Char) (e : Error)
    (st : State σ) (hraw : '\n' ∉ raw) (hs : Skipped (TrimSpace raw)) :
    readFrom P ⟨raw ++ '\n' :: rest, e⟩ st = readFrom P ⟨rest, e⟩ st := by
  rw [readFrom_line P raw rest e st hraw, readLine_eq]
  simp [hs]

theorem readFrom_skipped_lines {σ : Type} (P : Collab σ) (rest : List Char) (e : Error)
    (st : State σ) (ms : List (List Char))
    (h : ∀ m ∈ ms, '\n' ∉ m ∧ Skipped (TrimSpace m)) :
    readFrom P ⟨unlines ms ++ rest, e⟩ st = readFrom P ⟨rest, e⟩ st := by
  induction ms with
  | nil => rfl
  | cons m ms ih =>
    have hm := h m (by simp)
    rw [unlines, List.append_assoc, List.cons_append, readFrom_skipped P m _ e st hm.1 hm.2]
    exact ih (fun x hx => h x (by simp [hx]))

theorem readFrom_section {σ : Type} (P : Collab σ) (raw rest l : List Char) (e : Error)
    (st : State σ) (hraw : '\n' ∉ raw) (hl : TrimSpace raw = l) (hb : Bracketed l) :
    readFrom P ⟨raw ++ '\n' :: rest, e⟩ st =
      readFrom P ⟨rest, e⟩
        ⟨P.AddSection st.c (TrimSpace l.tail.dropLast), TrimSpace l.tail.dropLast, []⟩ := by
  rw [readFrom_line P raw rest e st hraw, hl, readLine_eq]
  simp [hb, hb.not_skipped]

theorem readFrom_parse_error {σ : Type} (P : Collab σ) (raw rest l : List Char) (e : Error)
    (st : State σ) (hraw : '\n' ∉ raw) (hl : TrimSpace raw = l) (hskip : ¬ Skipped l)
    (hsec : ¬ Bracketed l) (hi : IndexAny l ['=', ':'] ≤ 0)
    (hs : st.sect = [] ∨ st.option = []) :
    readFrom P ⟨raw ++ '\n' :: rest, e⟩ st = Outcome.returned (st, some (parseError l)) := by
  rw [readFrom_line P raw rest e st hraw, hl, readLine_eq, caseDefault_eq]
  have hi1 : ¬ 0 < IndexAny l ['=', ':'] := by omega
  have hs1 : ¬ (st.sect ≠ [] ∧ st.option ≠ []) := by tauto
  simp [hskip, hsec, hi1, hs1]

/-! ## The store of the specification: lookup after update -/

theorem find_setOption (n v : List Char) (os : List (List Char × List Char)) :
    ((setOption n v os).find? (fun o => o.1 == n)).map Prod.snd = some v := by
  induction os with
  | nil => simp [setOption]
  | cons o os ih =>
    obtain ⟨m, w⟩ := o
    by_cases h : m = n
    · simp [setOption, h]
    · simp [setOption, h, List.find?_cons, ih]

theorem specLookup_setInSection (s n v : List Char) (c : Store)
    (h : ∃ x ∈ c, x.1 = s) : specLookup (setInSection s n v c) s n = some v := by
  induction c with
  | nil => simp at h
  | cons x c ih =>
    obtain ⟨t, os⟩ := x
    by_cases ht : t = s
    · have hf := find_setOption n v os
      simp only [specLookup, setInSection, ht, if_true, List.find?_cons, beq_self_eq_true]
      cases hq : (setOption n v os).find? (fun o => o.1 == n) with
      | none => simp [hq] at hf
      | some o => simpa [hq] using hf
    · have hc : ∃ x ∈ c, x.1 = s := by
        obtain ⟨x, hx, hxs⟩ := h
        rcases List.mem_cons.mp hx with h1 | h1
        · subst h1
          exact absurd hxs ht
        · exact ⟨x, h1, hxs⟩
      have := ih hc
      simp only [specLookup, setInSection, ht, if_false, List.find?_cons,
        beq_false_of_ne ht] at this ⊢
      exact this

theorem specAddSection_has (c : Store) (s : List Char) :
    ∃ x ∈ specAddSection c s, x.1 = s := by
  unfold specAddSection
  split
  · rename_i h
    obtain ⟨x, hx, hxs⟩ := List.any_eq_true.mp h
    exact ⟨x, hx, by simpa using hxs⟩
  · exact ⟨(s, []), by simp, rfl⟩

/-- In the store of the specification an option just added is found with the
value it was given. -/
theorem specLookup_specAddOption (c : Store) (s n v : List Char) :
    specLookup (specAddOption c s n v) s n = some v :=
  specLookup_setInSection s n v _ (specAddSection_has c s)

/-- An unterminated end of the text is never looked at: on a reader that ends
with `io.EOF` the result is that of the whole lines before it. -/
theorem read_unterminated_tail {σ : Type} (P : Collab σ) (c : σ) (pre t : List Char)
    (hpre : WholeLines pre) (ht : '\n' ∉ t) :
    read P c ⟨pre ++ t, Error.EOF⟩ = read P c ⟨pre, Error.EOF⟩ := by
  unfold read
  rw [readFrom_append P t Error.EOF pre.length pre _ (Nat.le_refl _) hpre]
  cases readFrom P ⟨pre, Error.EOF⟩ ⟨c, [], []⟩ with
  | returned r =>
    obtain ⟨st, err⟩ := r
    cases err with
    | none =>
      simp only []
      rw [readFrom_last P t Error.EOF st ht]
      rfl
    | some err => rfl
  | panicked => rfl
  | outOfFuel => rfl

/-! ## Properties of `read` -/

/-- C1 (fails on the code): a final line without a trailing newline is dropped.
`ReadString` hands it over together with `io.EOF`, and the loop breaks on
`io.EOF` before looking at it: after `[s]`, the unterminated `a=1` adds no
option, and an unterminated `garbage` raises no parse error, while the same
texts followed by a newline add the option and raise the error. -/
theorem read_drops_unterminated_final_line :
    read specCollab [] ⟨"[s]\na=1".toList, Error.EOF⟩ =
        Outcome.returned ([("s".toList, [])], none) ∧
      read specCollab [] ⟨"[s]\na=1\n".toList, Error.EOF⟩ =
        Outcome.returned ([("s".toList, [("a".toList, "1".toList)])], none) ∧
      read specCollab [] ⟨"garbage".toList, Error.EOF⟩ = Outcome.returned ([], none) ∧
      read specCollab [] ⟨"garbage\n".toList, Error.EOF⟩ =
        Outcome.returned ([], some (Error.New "could not parse line: garbage".toList)) := by
  decide

/-- C2 (as stated, refuted): the trimmed line `=x` is not blank, not a comment,
not a section header and contains `=`, with the first delimiter at index 0; yet
`read` does not add an option with the empty name and the value `x`: it returns
the parse error for the line and leaves the store empty. -/
theorem leading_delimiter_is_not_key_value :
    (¬ Skipped (TrimSpace "=x".toList) ∧ ¬ Bracketed (TrimSpace "=x".toList) ∧
        '=' ∈ TrimSpace "=x".toList ∧ IndexAny (TrimSpace "=x".toList) ['=', ':'] = 0) ∧
      read specCollab [] ⟨"=x\n".toList, Error.EOF⟩ =
        Outcome.returned ([], some (Error.New "could not parse line: =x".toList)) ∧
      read specCollab [] ⟨"=x\n".toList, Error.EOF⟩ ≠
        Outcome.returned (specAddOption [] [] [] "x".toList, none) := by
  decide

/-- C2 (amended): a line whose trimmed text `l` is not blank, not a comment, not
a `rem` comment and not a section header, and whose first `=` or `:` is at an
index `i > 0`, is a key/value line: the loop calls
`AddOption(section, TrimSpace(l[0:i]), TrimSpace(stripComments(l[i+1:])))`,
makes that name the current option and goes on with the next line. -/
theorem read_key_value_line {σ : Type} (P : Collab σ) (raw rest l : List Char) (e : Error)
    (st : State σ) (hraw : '\n' ∉ raw) (hl : TrimSpace raw = l) (hskip : ¬ Skipped l)
    (hsec : ¬ Bracketed l) (hi : 0 < IndexAny l ['=', ':']) :
    readFrom P ⟨raw ++ '\n' :: rest, e⟩ st =
      readFrom P ⟨rest, e⟩
        ⟨P.AddOption st.c st.sect (TrimSpace (l.take (IndexAny l ['=', ':']).toNat))
            (TrimSpace (P.stripComments (l.drop ((IndexAny l ['=', ':']).toNat + 1)))),
          st.sect, TrimSpace (l.take (IndexAny l ['=', ':']).toNat)⟩ :=
  readFrom_key_value P raw rest l e st hraw hl hskip hsec hi

/-- C2, at `a = 1 # comment` and at `a : b = c`: option `a` gets the value `1`,
respectively `b = c`. -/
theorem read_key_value_line_witness :
    readFrom specCollab ⟨"a = 1 # comment\n".toList, Error.EOF⟩ ⟨[], [], []⟩ =
        readFrom specCollab ⟨[], Error.EOF⟩
          ⟨[([], [("a".toList, "1".toList)])], [], "a".toList⟩ ∧
      read specCollab [] ⟨"a : b = c\n".toList, Error.EOF⟩ =
        Outcome.returned ([([], [("a".toList, "b = c".toList)])], none) :=
  ⟨read_key_value_line specCollab "a = 1 # comment".toList [] "a = 1 # comment".toList
      Error.EOF ⟨[], [], []⟩ (by decide) (by decide) (by decide) (by decide) (by decide),
    by decide⟩

/-- C3: a line that is not blank, not a comment, not a section header and not a
key/value line (no `=` or `:`, or the first one at index 0), met while the current
section and the current option are both non-empty, is a continuation: the loop
overwrites the option with `previous + "\n" + TrimSpace(stripComments(l))`,
`previous` being `RawString(section, option)`, keeps the current section and
option, and goes on with the next line. -/
theorem read_continuation_line {σ : Type} (P : Collab σ) (raw rest l : List Char) (e : Error)
    (st : State σ) (hraw : '\n' ∉ raw) (hl : TrimSpace raw = l) (hskip : ¬ Skipped l)
    (hsec : ¬ Bracketed l) (hi : IndexAny l ['=', ':'] ≤ 0)
    (hs : st.sect ≠ []) (ho : st.option ≠ []) :
    readFrom P ⟨raw ++ '\n' :: rest, e⟩ st =
      readFrom P ⟨rest, e⟩
        ⟨P.AddOption st.c st.sect st.option
            (P.RawString st.c st.sect st.option ++ ['\n'] ++ TrimSpace (P.stripComments l)),
          st.sect, st.option⟩ :=
  readFrom_continuation P raw rest l e st hraw hl hskip hsec hi hs ho

/-- C3, at the text `[s]`, `a = 1`, `  more`, `  again`: the line `  more` turns
`s.a` from `1` into `1\nmore`, and the whole text leaves `s.a = 1\nmore\nagain`. -/
theorem read_continuation_line_witness :
    readFrom specCollab ⟨"  more\n  again\n".toList, Error.EOF⟩
        ⟨[("s".toList, [("a".toList, "1".toList)])], "s".toList, "a".toList⟩ =
      readFrom specCollab ⟨"  again\n".toList, Error.EOF⟩
        ⟨[("s".toList, [("a".toList, "1\nmore".toList)])], "s".toList, "a".toList⟩ ∧
      read specCollab [] ⟨"[s]\na = 1\n  more\n  again\n".toList, Error.EOF⟩ =
        Outcome.returned ([("s".toList, [("a".toList, "1\nmore\nagain".toList)])], none) :=
  ⟨read_continuation_line specCollab "  more".toList "  again\n".toList "more".toList
      Error.EOF ⟨[("s".toList, [("a".toList, "1".toList)])], "s".toList, "a".toList⟩
      (by decide) (by decide) (by decide) (by decide) (by decide) (by decide) (by decide),
    by decide⟩


/-- C4 (as stated, refuted): with nothing before them, `a = 1` followed by
`  more` makes `read` return the parse error for `more`, and option `a` keeps
the value `1`: no section is current, so the line is not a continuation. -/
theorem continuation_without_section_fails :
    read specCollab [] ⟨"a = 1\n  more\n".toList, Error.EOF⟩ =
        Outcome.returned ([([], [("a".toList, "1".toList)])],
          some (Error.New "could not parse line: more".toList)) ∧
      specLookup [([], [("a".toList, "1".toList)])] [] "a".toList = some "1".toList := by
  decide

/-- C4 (amended): while a section with a non-empty name is current, the
key/value line `a = 1` followed by the line `  more` is read without error and
leaves option `a` of that section with the value `1\nmore`. -/
theorem continuation_after_key_value_in_section (c : Store) (sect opt : List Char)
    (hs : sect ≠ []) :
    ∃ c1, readFrom specCollab ⟨"a = 1\n  more\n".toList, Error.EOF⟩ ⟨c, sect, opt⟩ =
        Outcome.returned (⟨c1, sect, "a".toList⟩, none) ∧
      specLookup c1 sect "a".toList = some "1\nmore".toList := by
  have e1 := readFrom_key_value specCollab "a = 1".toList "  more\n".toList "a = 1".toList
    Error.EOF ⟨c, sect, opt⟩ (by decide) (by decide) (by decide) (by decide) (by decide)
  have e2 := readFrom_continuation specCollab "  more".toList [] "more".toList Error.EOF
    ⟨specAddOption c sect "a".toList "1".toList, sect, "a".toList⟩
    (by decide) (by decide) (by decide) (by decide) (by decide) hs
    (show "a".toList ≠ [] by decide)
  have e3 := readFrom_last specCollab [] Error.EOF
    ⟨specAddOption (specAddOption c sect "a".toList "1".toList) sect "a".toList
      "1\nmore".toList, sect, "a".toList⟩ (by simp)
  have hprev : specCollab.RawString (specAddOption c sect "a".toList "1".toList) sect
      "a".toList = "1".toList := by
    show (specLookup _ _ _).getD [] = _
    rw [specLookup_specAddOption]
    rfl
  simp only [hprev] at e2
  exact ⟨_, e1.trans (e2.trans e3), specLookup_specAddOption _ _ _ _⟩

/-- C4, in section `s`: `[s]`, `a = 1`, `  more` leaves `s.a = 1\nmore`. -/
theorem continuation_after_key_value_in_section_witness :
    (∃ c1, readFrom specCollab ⟨"a = 1\n  more\n".toList, Error.EOF⟩
          ⟨[("s".toList, [])], "s".toList, []⟩ =
        Outcome.returned (⟨c1, "s".toList, "a".toList⟩, none) ∧
      specLookup c1 "s".toList "a".toList = some "1\nmore".toList) ∧
    read specCollab [] ⟨"[s]\na = 1\n  more\n".toList, Error.EOF⟩ =
      Outcome.returned ([("s".toList, [("a".toList, "1\nmore".toList)])], none) :=
  ⟨continuation_after_key_value_in_section [("s".toList, [])] "s".toList [] (by decide),
    by decide⟩


/-- C5: a section header resets the continuation state.  When the lines before
it are read without error, a section-header line followed, after blank and
comment lines only, by a line that is not blank, not a comment, not a header and
not a key/value line makes `read` return the parse error for that line; the
store is the one the earlier lines left, with the `AddSection` of the header
and nothing appended to any option. -/
theorem header_resets_continuation {σ : Type} (P : Collab σ) (c : σ)
    (pre hdr raw post l : List Char) (mids : List (List Char)) (e : Error) (st : State σ)
    (hpre : WholeLines pre)
    (hrun : readFrom P ⟨pre, Error.EOF⟩ ⟨c, [], []⟩ = Outcome.returned (st, none))
    (hhdr : '\n' ∉ hdr) (hb : Bracketed (TrimSpace hdr))
    (hmids : ∀ m ∈ mids, '\n' ∉ m ∧ Skipped (TrimSpace m))
    (hraw : '\n' ∉ raw) (hl : TrimSpace raw = l) (hskip : ¬ Skipped l)
    (hsec : ¬ Bracketed l) (hi : IndexAny l ['=', ':'] ≤ 0) :
    read P c ⟨pre ++ (hdr ++ '\n' :: (unlines mids ++ (raw ++ '\n' :: post))), e⟩ =
      Outcome.returned
        (P.AddSection st.c (TrimSpace (TrimSpace hdr).tail.dropLast), some (parseError l)) := by
  apply read_eq P c _
    ⟨P.AddSection st.c (TrimSpace (TrimSpace hdr).tail.dropLast),
      TrimSpace (TrimSpace hdr).tail.dropLast, []⟩
  rw [readFrom_append P _ e pre.length pre _ (Nat.le_refl _) hpre, hrun]
  simp only []
  rw [readFrom_section P hdr _ _ e st hhdr rfl hb, readFrom_skipped_lines P _ e _ mids hmids,
    readFrom_parse_error P raw post l e _ hraw hl hskip hsec hi (Or.inr rfl)]

/-- C5, at `[s1]`, `a=1`, `[s2]`, `more`: the error is the one for `more` and
`s1.a` is still `1`. -/
theorem header_resets_continuation_witness :
    read specCollab [] ⟨"[s1]\na=1\n[s2]\nmore\n".toList, Error.EOF⟩ =
      Outcome.returned
        ([("s1".toList, [("a".toList, "1".toList)]), ("s2".toList, [])],
          some (Error.New "could not parse line: more".toList)) :=
  header_resets_continuation specCollab [] "[s1]\na=1\n".toList "[s2]".toList "more".toList
    [] "more".toList [] Error.EOF
    ⟨[("s1".toList, [("a".toList, "1".toList)])], "s1".toList, "a".toList⟩
    (by decide) (by decide) (by decide) (by decide) (by simp) (by decide) (by decide)
    (by decide) (by decide) (by decide)

/-- C7: blank and comment lines have no effect.  Inserting (or deleting) at a
line boundary a newline-terminated line whose trimmed text is empty, starts with
`#` or `;`, or starts with `rem` in any letter case changes neither the error
`read` returns nor the store it leaves. -/
theorem skipped_line_no_effect {σ : Type} (P : Collab σ) (c : σ)
    (pre raw post : List Char) (e : Error)
    (hpre : WholeLines pre) (hraw : '\n' ∉ raw) (hs : Skipped (TrimSpace raw)) :
    read P c ⟨pre ++ (raw ++ '\n' :: post), e⟩ = read P c ⟨pre ++ post, e⟩ := by
  unfold read
  rw [readFrom_append P _ e pre.length pre _ (Nat.le_refl _) hpre,
    readFrom_append P post e pre.length pre _ (Nat.le_refl _) hpre]
  cases readFrom P ⟨pre, Error.EOF⟩ ⟨c, [], []⟩ with
  | returned r =>
    obtain ⟨st, err⟩ := r
    cases err with
    | none =>
      simp only []
      rw [readFrom_skipped P raw post e st hraw hs]
    | some err => rfl
  | panicked => rfl
  | outOfFuel => rfl

/-- C7, with a comment line, a `REM` line and a blank line between a key/value
line and its continuation: the continuation is still appended. -/
theorem skipped_line_no_effect_witness :
    read specCollab [] ⟨"[s]\na=1\n# c\n more\n".toList, Error.EOF⟩ =
        read specCollab [] ⟨"[s]\na=1\n more\n".toList, Error.EOF⟩ ∧
      read specCollab [] ⟨"[s]\na=1\n; c\nREM x\n \t\r\n more\n".toList, Error.EOF⟩ =
        Outcome.returned ([("s".toList, [("a".toList, "1\nmore".toList)])], none) :=
  ⟨skipped_line_no_effect specCollab [] "[s]\na=1\n".toList "# c".toList " more\n".toList
      Error.EOF (by decide) (by decide) (by decide),
    by decide⟩

/-- C8: a line whose trimmed text `l` starts with `[` and ends with `]` is a
section header: the loop calls `AddSection` with `TrimSpace` of the text strictly
between the first and the last character of `l`, makes that name the current
section, empties the current option and goes on with the next line. -/
theorem read_section_header {σ : Type} (P : Collab σ) (raw rest l : List Char) (e : Error)
    (st : State σ) (hraw : '\n' ∉ raw) (hl : TrimSpace raw = l)
    (hfirst : l.head? = some '[') (hlast : l.getLast? = some ']') :
    readFrom P ⟨raw ++ '\n' :: rest, e⟩ st =
      readFrom P ⟨rest, e⟩
        ⟨P.AddSection st.c (TrimSpace l.tail.dropLast), TrimSpace l.tail.dropLast, []⟩ :=
  readFrom_section P raw rest l e st hraw hl ⟨hfirst, hlast⟩

/-- C8, at `[ foo ]`: the section name is `foo`. -/
theorem read_section_header_witness :
    readFrom specCollab ⟨"[ foo ]\n".toList, Error.EOF⟩ ⟨[], "old".toList, "a".toList⟩ =
        readFrom specCollab ⟨[], Error.EOF⟩ ⟨[("foo".toList, [])], "foo".toList, []⟩ ∧
      read specCollab [] ⟨"[ foo ]\n".toList, Error.EOF⟩ =
        Outcome.returned ([("foo".toList, [])], none) :=
  ⟨read_section_header specCollab "[ foo ]".toList [] "[ foo ]".toList Error.EOF
      ⟨[], "old".toList, "a".toList⟩ (by decide) (by decide) (by decide) (by decide),
    by decide⟩


theorem readLine_ret_iff {σ : Type} (P : Collab σ) (st : State σ) (l : List Char)
    (err : Error) :
    readLine P st l = some (Step.ret err) ↔ Unparsable st l ∧ err = parseError l := by
  rw [readLine_eq, caseDefault_eq]
  unfold Unparsable
  constructor
  · intro h
    split_ifs at h with h1 h2 h3 h4
    · simp at h
    · simp at h
    · simp at h
    · simp at h
    · simp only [Option.some.injEq, Step.ret.injEq] at h
      refine ⟨⟨h1, h2, by omega, ?_⟩, h.symm⟩
      by_cases hs : st.sect = []
      · exact Or.inl hs
      · right
        by_contra ho
        exact h4 ⟨hs, ho⟩
  · rintro ⟨⟨h1, h2, h3, h4⟩, h5⟩
    have hi : ¬ 0 < IndexAny l ['=', ':'] := by omega
    have hc : ¬ (st.sect ≠ [] ∧ st.option ≠ []) := by tauto
    simp [h1, h2, hi, hc, h5]

/-- Where the loop returns an error on a reader that never fails, the text
splits into whole lines read without error and a first line that cannot be
parsed. -/
theorem readFrom_error_split {σ : Type} (P : Collab σ) :
    ∀ (n : Nat) (t : List Char) (st0 st1 : State σ) (err : Error), t.length ≤ n →
      readFrom P ⟨t, Error.EOF⟩ st0 = Outcome.returned (st1, some err) →
      ∃ pre raw post, t = pre ++ (raw ++ '\n' :: post) ∧ WholeLines pre ∧ '\n' ∉ raw ∧
        readFrom P ⟨pre, Error.EOF⟩ st0 = Outcome.returned (st1, none) ∧
        Unparsable st1 (TrimSpace raw) ∧ err = parseError (TrimSpace raw) := by
  intro n
  induction n with
  | zero =>
    intro t st0 st1 err hn h
    have hp : t = [] := List.length_eq_zero.mp (by omega)
    subst hp
    simp [readFrom_last P [] Error.EOF st0 (by simp)] at h
  | succ n ih =>
    intro t st0 st1 err hn h
    by_cases hm : '\n' ∈ t
    · obtain ⟨raw, rest, h1, h2⟩ := split_first _ _ hm
      subst h2
      rw [readFrom_line P raw rest Error.EOF st0 h1] at h
      cases hr : readLine P st0 (TrimSpace raw) with
      | none => simp [hr] at h
      | some s =>
        cases s with
        | ret err1 =>
          simp only [hr, Outcome.returned.injEq, Prod.mk.injEq, Option.some.injEq] at h
          obtain ⟨hst, herr⟩ := h
          subst hst
          subst herr
          obtain ⟨hu, he⟩ := (readLine_ret_iff P st0 _ err1).mp hr
          exact ⟨[], raw, rest, rfl, Or.inl rfl,
            h1, by simp [readFrom_last P [] Error.EOF st0 (by simp)], hu, he⟩
        | next st2 =>
          simp only [hr] at h
          have hlen : rest.length ≤ n := by simp at hn; omega
          obtain ⟨pre, raw2, post, e1, e2, e3, e4, e5, e6⟩ := ih rest st2 st1 err hlen h
          refine ⟨raw ++ '\n' :: pre, raw2, post, by simp [e1], wholeLines_line raw pre e2,
            e3, ?_, e5, e6⟩
          rw [readFrom_line P raw pre Error.EOF st0 h1, hr]
          exact e4
    · simp [readFrom_last P t Error.EOF st0 hm] at h

/-- C6 (as stated, refuted): on the text `:x` followed by a newline `read`
returns a parse error although every newline-terminated line of the text (there
is one, `:x`) contains the delimiter `:`. -/
theorem parse_error_on_line_with_delimiter :
    read specCollab [] ⟨":x\n".toList, Error.EOF⟩ =
        Outcome.returned ([], some (Error.New "could not parse line: :x".toList)) ∧
      ∀ pre raw post : List Char, WholeLines pre → '\n' ∉ raw →
        ":x\n".toList = pre ++ (raw ++ '\n' :: post) → ':' ∈ TrimSpace raw := by
  refine ⟨by decide, ?_⟩
  intro pre raw post hpre hraw heq
  have h0 : splitAfter '\n' ":x\n".toList = some ([':', 'x', '\n'], []) := by decide
  rcases wholeLines_cases pre hpre with hp | ⟨raw0, rest0, h1, h2, _⟩
  · subst hp
    rw [heq, List.nil_append, splitAfter_append _ _ _ hraw] at h0
    simp only [Option.some.injEq, Prod.mk.injEq] at h0
    have hr : raw = ":x".toList := by
      have := h0.1
      have h3 : raw ++ ['\n'] = [':', 'x'] ++ ['\n'] := this
      exact List.append_cancel_right h3
    subst hr
    decide
  · subst h2
    rw [heq, List.append_assoc, List.cons_append, splitAfter_append _ _ _ h1] at h0
    simp only [Option.some.injEq, Prod.mk.injEq] at h0
    exact absurd h0.2 (by simp)

/-- C6 (amended): with a reader that never fails `read` always returns, and it
returns a non-nil error exactly when some newline-terminated line, after
trimming, is non-empty, not a comment, not a section header, has no `=` or `:`
or has the first one as its first character (`IndexAny` is `-1` or `0`), and is
met, the lines before it having been read
without error, while the current section or the current option is empty.  The
error is the one for that first line, with the text `could not parse line: `
followed by the trimmed line, and the store is the one the earlier lines
left; otherwise the error is nil. -/
theorem read_error_iff {σ : Type} (P : Collab σ) (c : σ) (t : List Char) :
    (∃ c1 err, read P c ⟨t, Error.EOF⟩ = Outcome.returned (c1, err)) ∧
    ∀ (c1 : σ) (err : Error),
      read P c ⟨t, Error.EOF⟩ = Outcome.returned (c1, some err) ↔
        ∃ pre raw post st, t = pre ++ (raw ++ '\n' :: post) ∧ WholeLines pre ∧ '\n' ∉ raw ∧
          readFrom P ⟨pre, Error.EOF⟩ ⟨c, [], []⟩ = Outcome.returned (st, none) ∧
          Unparsable st (TrimSpace raw) ∧ c1 = st.c ∧
          err = Error.New ("could not parse line: ".toList ++ TrimSpace raw) := by
  constructor
  · obtain ⟨st1, err, h⟩ := readFrom_total P Error.EOF t.length t ⟨c, [], []⟩ (Nat.le_refl _)
    exact ⟨st1.c, err, read_eq P c _ st1 err h⟩
  · intro c1 err
    constructor
    · intro h
      obtain ⟨st1, err1, h1⟩ :=
        readFrom_total P Error.EOF t.length t ⟨c, [], []⟩ (Nat.le_refl _)
      rw [read_eq P c _ st1 err1 h1] at h
      simp only [Outcome.returned.injEq, Prod.mk.injEq] at h
      obtain ⟨hc, he⟩ := h
      subst he
      obtain ⟨pre, raw, post, e1, e2, e3, e4, e5, e6⟩ :=
        readFrom_error_split P t.length t _ st1 err (Nat.le_refl _) h1
      exact ⟨pre, raw, post, st1, e1, e2, e3, e4, e5, hc.symm, e6⟩
    · rintro ⟨pre, raw, post, st, e1, e2, e3, e4, ⟨u1, u2, u3, u4⟩, e6, e7⟩
      subst e1
      subst e6
      subst e7
      apply read_eq P c _ st
      rw [readFrom_append P _ Error.EOF pre.length pre _ (Nat.le_refl _) e2, e4]
      exact readFrom_parse_error P raw post _ Error.EOF st e3 rfl u1 u2 u3 u4


/-! ## The two delimiters -/

theorem dropWhile_append_cons_of_neg (p : Char → Bool) (x y : List Char) (d : Char)
    (h : p d = false) : (x ++ d :: y).dropWhile p = x.dropWhile p ++ d :: y := by
  induction x with
  | nil => simp [List.dropWhile_cons, h]
  | cons a x ih =>
    by_cases ha : p a = true
    · simp [List.dropWhile_cons, ha, ih]
    · simp [List.dropWhile_cons, ha]

theorem TrimSpace_append_cons (x y : List Char) (d : Char) (h : IsSpace d = false) :
    TrimSpace (x ++ d :: y) =
      x.dropWhile IsSpace ++ d :: (y.reverse.dropWhile IsSpace).reverse := by
  unfold TrimSpace
  rw [dropWhile_append_cons_of_neg _ _ _ _ h, List.reverse_append, List.reverse_cons,
    List.append_assoc, List.singleton_append, dropWhile_append_cons_of_neg _ _ _ _ h]
  simp

theorem indexWhere_append_cons (p : Char → Bool) (a b : List Char) (d : Char)
    (hd : p d = true) (ha : ∀ x ∈ a, p x = false) :
    indexWhere p (a ++ d :: b) = a.length := by
  induction a with
  | nil => simp [indexWhere, hd]
  | cons x a ih =>
    have hx : p x = false := ha x (by simp)
    have := ih (fun y hy => ha y (by simp [hy]))
    simp only [List.cons_append, indexWhere, hx, this, List.length_cons]
    simp
    omega

theorem rem_append_cons (lx ry : List Char) (d : Char) (hd : d = '=' ∨ d = ':')
    (hne : lx ≠ []) :
    ToLower ((lx ++ d :: ry).take 3) = ['r', 'e', 'm'] ↔
      (3 ≤ lx.length ∧ ToLower (lx.take 3) = ['r', 'e', 'm']) := by
  have hd1 : toLowerRune d ≠ 'e' ∧ toLowerRune d ≠ 'm' := by
    rcases hd with rfl | rfl <;> decide
  match lx, hne with
  | [a], _ => simp [ToLower, hd1.1]
  | [a, b], _ => simp [ToLower, hd1.2]
  | a :: b :: c :: s, _ => simp [ToLower]

theorem skipped_append_cons (lx ry : List Char) (d : Char) (hd : d = '=' ∨ d = ':')
    (hne : lx ≠ []) :
    Skipped (lx ++ d :: ry) ↔
      (lx.head? = some '#' ∨ lx.head? = some ';' ∨
        (3 ≤ lx.length ∧ ToLower (lx.take 3) = ['r', 'e', 'm'])) := by
  unfold Skipped
  rw [rem_append_cons lx ry d hd hne, List.head?_append_of_ne_nil _ hne]
  simp

theorem bracketed_append_cons (lx ry : List Char) (d : Char) (hd : d = '=' ∨ d = ':')
    (hne : lx ≠ []) :
    Bracketed (lx ++ d :: ry) ↔
      (lx.head? = some '[' ∧ ry.getLast? = some ']') := by
  unfold Bracketed
  rw [List.head?_append_of_ne_nil _ hne, List.getLast?_append_of_ne_nil _ (by simp)]
  have hd1 : d ≠ ']' := by
    rcases hd with rfl | rfl <;> decide
  cases ry with
  | nil => simp [hd1]
  | cons b ry => rw [getLast?_cons_of_ne_nil _ _ (by simp)]

/-- On a key/value line the loop body does not depend on which of the two
delimiters stands at the first delimiter position. -/
theorem readLine_delimiter {σ : Type} (P : Collab σ) (st : State σ) (lx ry : List Char)
    (d d1 : Char) (hd : d = '=' ∨ d = ':') (hd1 : d1 = '=' ∨ d1 = ':')
    (hlx : ∀ a ∈ lx, a ≠ '=' ∧ a ≠ ':') (hne : lx ≠ []) (hsec : ¬ Bracketed (lx ++ d :: ry)) :
    readLine P st (lx ++ d :: ry) = readLine P st (lx ++ d1 :: ry) := by
  have hidx : ∀ b, (b = '=' ∨ b = ':') → IndexAny (lx ++ b :: ry) ['=', ':'] = lx.length := by
    intro b hb
    apply indexWhere_append_cons
    · rcases hb with rfl | rfl <;> decide
    · intro a ha
      have := hlx a ha
      simp [this.1, this.2]
  have hpos : (0 : Int) < lx.length := by
    have := List.length_pos.mpr hne
    omega
  have hsec1 : ¬ Bracketed (lx ++ d1 :: ry) := by
    rw [bracketed_append_cons lx ry d1 hd1 hne, ← bracketed_append_cons lx ry d hd hne]
    exact hsec
  rw [readLine_eq, readLine_eq, caseDefault_eq, caseDefault_eq, hidx d hd, hidx d1 hd1]
  simp only [skipped_append_cons lx ry d hd hne, skipped_append_cons lx ry d1 hd1 hne,
    hsec, hsec1, if_false, hpos, if_true, Int.toNat_ofNat, List.take_left']
  have hdrop : ∀ b : Char, List.drop (lx.length + 1) (lx ++ b :: ry) = ry := by
    intro b
    rw [List.drop_append_eq_append_drop]
    simp
  rw [hdrop d, hdrop d1]


/-- C9: the two delimiters are interchangeable.  In a line `x d y` whose first
`=` or `:` is `d`, standing after the first character of the trimmed line, and
which is not a section header (so in every key/value line), replacing `d` by
either delimiter changes neither the error `read` returns nor the store it
leaves; the line may be newline-terminated or be the unterminated end of the
text. -/
theorem delimiters_interchangeable {σ : Type} (P : Collab σ) (c : σ)
    (pre x y tail : List Char) (d d1 : Char) (e : Error)
    (hpre : WholeLines pre) (hx : '\n' ∉ x) (hy : '\n' ∉ y)
    (htail : tail = [] ∨ tail.head? = some '\n')
    (hd : d = '=' ∨ d = ':') (hd1 : d1 = '=' ∨ d1 = ':')
    (hfirst : '=' ∉ x ∧ ':' ∉ x)
    (hsec : ¬ Bracketed (TrimSpace (x ++ d :: y)))
    (hi : 0 < IndexAny (TrimSpace (x ++ d :: y)) ['=', ':']) :
    read P c ⟨pre ++ ((x ++ d :: y) ++ tail), e⟩ =
      read P c ⟨pre ++ ((x ++ d1 :: y) ++ tail), e⟩ := by
  have hsp : ∀ b, (b = '=' ∨ b = ':') → IsSpace b = false := by
    intro b hb
    rcases hb with rfl | rfl <;> decide
  have hnl : ∀ b, (b = '=' ∨ b = ':') → '\n' ∉ x ++ b :: y := by
    intro b hb hm
    rcases List.mem_append.mp hm with h1 | h1
    · exact hx h1
    · rcases List.mem_cons.mp h1 with h2 | h2
      · rcases hb with rfl | rfl <;> exact absurd h2 (by decide)
      · exact hy h2
  have hlx : ∀ a ∈ x.dropWhile IsSpace, a ≠ '=' ∧ a ≠ ':' := by
    intro a ha
    have hax : a ∈ x := (List.dropWhile_sublist IsSpace).subset ha
    constructor
    · rintro rfl
      exact hfirst.1 hax
    · rintro rfl
      exact hfirst.2 hax
  rw [TrimSpace_append_cons x y d (hsp d hd)] at hsec hi
  have hne : x.dropWhile IsSpace ≠ [] := by
    intro h0
    rw [h0] at hi
    have : IndexAny (d :: (y.reverse.dropWhile IsSpace).reverse) ['=', ':'] = 0 := by
      rcases hd with rfl | rfl <;> simp [IndexAny, indexWhere]
    simp only [List.nil_append] at hi
    omega
  have key : ∀ st : State σ,
      readFrom P ⟨(x ++ d :: y) ++ tail, e⟩ st = readFrom P ⟨(x ++ d1 :: y) ++ tail, e⟩ st := by
    intro st
    rcases htail with ht | ht
    · subst ht
      rw [List.append_nil, List.append_nil, readFrom_last P _ e st (hnl d hd),
        readFrom_last P _ e st (hnl d1 hd1)]
    · obtain ⟨post, hpost⟩ : ∃ post, tail = '\n' :: post := by
        cases tail with
        | nil => simp at ht
        | cons a post =>
          simp at ht
          exact ⟨post, by rw [ht]⟩
      subst hpost
      rw [readFrom_line P _ post e st (hnl d hd), readFrom_line P _ post e st (hnl d1 hd1),
        TrimSpace_append_cons x y d (hsp d hd), TrimSpace_append_cons x y d1 (hsp d1 hd1),
        readLine_delimiter P st _ _ d d1 hd hd1 hlx hne hsec]
  unfold read
  rw [readFrom_append P _ e pre.length pre _ (Nat.le_refl _) hpre,
    readFrom_append P _ e pre.length pre _ (Nat.le_refl _) hpre]
  cases readFrom P ⟨pre, Error.EOF⟩ ⟨c, [], []⟩ with
  | returned r =>
    obtain ⟨st, err⟩ := r
    cases err with
    | none =>
      simp only []
      rw [key st]
    | some err => rfl
  | panicked => rfl
  | outOfFuel => rfl

/-- C9, at `a = 1` and `a: 1`: both texts give the same result, option `a` with
the value `1`. -/
theorem delimiters_interchangeable_witness :
    read specCollab [] ⟨"[s]\na = 1\nb=2\n".toList, Error.EOF⟩ =
        read specCollab [] ⟨"[s]\na : 1\nb=2\n".toList, Error.EOF⟩ ∧
      read specCollab [] ⟨"a: 1\n".toList, Error.EOF⟩ =
        Outcome.returned ([([], [("a".toList, "1".toList)])], none) ∧
      read specCollab [] ⟨"a = 1\n".toList, Error.EOF⟩ =
        Outcome.returned ([([], [("a".toList, "1".toList)])], none) :=
  ⟨delimiters_interchangeable specCollab [] "[s]\n".toList "a ".toList " 1".toList
      "\nb=2\n".toList '=' ':' Error.EOF (by decide) (by decide) (by decide) (by decide)
      (by decide) (by decide) (by decide) (by decide) (by decide),
    by decide, by decide⟩


/-! ## Overwriting an option -/

/-- Whatever `AddSection` and `AddOption` preserve, the loop preserves. -/
theorem readFrom_invariant {σ : Type} (P : Collab σ) (inv : σ → Prop)
    (hS : ∀ c s, inv c → inv (P.AddSection c s))
    (hO : ∀ c s n v, inv c → inv (P.AddOption c s n v)) (e : Error) :
    ∀ (n : Nat) (t : List Char) (st st1 : State σ) (err : Option Error), t.length ≤ n →
      inv st.c → readFrom P ⟨t, e⟩ st = Outcome.returned (st1, err) → inv st1.c := by
  intro n
  induction n with
  | zero =>
    intro t st st1 err hn hinv h
    have hp : t = [] := List.length_eq_zero.mp (by omega)
    subst hp
    rw [readFrom_last P [] e st (by simp)] at h
    split at h <;> simp at h <;> rw [← h.1] <;> exact hinv
  | succ n ih =>
    intro t st st1 err hn hinv h
    by_cases hm : '\n' ∈ t
    · obtain ⟨raw, rest, h1, h2⟩ := split_first _ _ hm
      subst h2
      have hlen : rest.length ≤ n := by simp at hn; omega
      rw [readFrom_line P raw rest e st h1, readLine_eq, caseDefault_eq] at h
      split_ifs at h
      · exact ih rest _ st1 err hlen hinv h
      · exact ih rest _ st1 err hlen (hS _ _ hinv) h
      · exact ih rest _ st1 err hlen (hO _ _ _ _ hinv) h
      · exact ih rest _ st1 err hlen (hO _ _ _ _ hinv) h
      · simp at h
        rw [← h.1]
        exact hinv
    · rw [readFrom_last P t e st hm] at h
      split at h <;> simp at h <;> rw [← h.1] <;> exact hinv

theorem map_fst_setOption (n v : List Char) (os : List (List Char × List Char)) :
    (setOption n v os).map Prod.fst =
      if n ∈ os.map Prod.fst then os.map Prod.fst else os.map Prod.fst ++ [n] := by
  induction os with
  | nil => simp [setOption]
  | cons o os ih =>
    obtain ⟨m, w⟩ := o
    by_cases h : m = n
    · simp [setOption, h]
    · have h1 : ¬ n = m := fun e => h e.symm
      by_cases hn : n ∈ os.map Prod.fst
      · simp only [setOption, h, if_false, List.map_cons, ih, hn, if_true, List.mem_cons,
          or_true]
      · simp only [setOption, h, if_false, List.map_cons, ih, hn, List.mem_cons, h1,
          or_self, List.cons_append]

theorem nodup_setOption (n v : List Char) (os : List (List Char × List Char))
    (h : (os.map Prod.fst).Nodup) : ((setOption n v os).map Prod.fst).Nodup := by
  rw [map_fst_setOption]
  split
  · exact h
  · rename_i hn
    rw [List.nodup_append]
    exact ⟨h, List.nodup_singleton n, by
      intro a ha hb
      simp at hb
      subst hb
      exact hn ha⟩

theorem filter_setOption (n v : List Char) (os : List (List Char × List Char))
    (h : (os.map Prod.fst).Nodup) :
    (setOption n v os).filter (fun o => o.1 == n) = [(n, v)] := by
  induction os with
  | nil => simp [setOption]
  | cons o os ih =>
    obtain ⟨m, w⟩ := o
    rw [List.map_cons, List.nodup_cons] at h
    by_cases hm : m = n
    · subst hm
      have hnone : os.filter (fun o => o.1 == m) = [] := by
        rw [List.filter_eq_nil_iff]
        intro o ho hoe
        have hom : o.1 = m := by simpa using hoe
        have hmem : o.1 ∈ os.map Prod.fst := List.mem_map_of_mem Prod.fst ho
        rw [hom] at hmem
        exact h.1 hmem
      simp [setOption, hnone]
    · simp [setOption, hm, ih h.2]

theorem uniqueOptions_specAddSection (c : Store) (s : List Char) (h : UniqueOptions c) :
    UniqueOptions (specAddSection c s) := by
  unfold specAddSection
  split
  · exact h
  · intro x hx
    rcases List.mem_append.mp hx with h1 | h1
    · exact h x h1
    · simp at h1
      subst h1
      simp

theorem uniqueOptions_setInSection (s n v : List Char) (c : Store) (h : UniqueOptions c) :
    UniqueOptions (setInSection s n v c) := by
  induction c with
  | nil => simpa [setInSection] using h
  | cons x c ih =>
    obtain ⟨t, os⟩ := x
    have hx : (os.map Prod.fst).Nodup := h (t, os) (by simp)
    have hc : UniqueOptions c := fun y hy => h y (by simp [hy])
    simp only [setInSection]
    split
    · intro y hy
      rcases List.mem_cons.mp hy with h1 | h1
      · subst h1
        exact nodup_setOption n v os hx
      · exact hc y h1
    · intro y hy
      rcases List.mem_cons.mp hy with h1 | h1
      · subst h1
        exact hx
      · exact ih hc y h1

theorem uniqueOptions_specAddOption (c : Store) (s n v : List Char) (h : UniqueOptions c) :
    UniqueOptions (specAddOption c s n v) :=
  uniqueOptions_setInSection s n v _ (uniqueOptions_specAddSection c s h)

theorem specOptions_setInSection (s n v : List Char) (c : Store) (h : ∃ x ∈ c, x.1 = s) :
    specOptions (setInSection s n v c) s = setOption n v (specOptions c s) := by
  induction c with
  | nil => simp at h
  | cons x c ih =>
    obtain ⟨t, os⟩ := x
    by_cases ht : t = s
    · simp [specOptions, setInSection, ht]
    · have hc : ∃ x ∈ c, x.1 = s := by
        obtain ⟨x, hx, hxs⟩ := h
        rcases List.mem_cons.mp hx with h1 | h1
        · subst h1
          exact absurd hxs ht
        · exact ⟨x, h1, hxs⟩
      have := ih hc
      simp only [specOptions, setInSection, ht, if_false, List.find?_cons,
        beq_false_of_ne ht] at this ⊢
      exact this

theorem nodup_specOptions (c : Store) (s : List Char) (h : UniqueOptions c) :
    ((specOptions c s).map Prod.fst).Nodup := by
  unfold specOptions
  cases hf : c.find? (fun x => x.1 == s) with
  | none => simp
  | some x => exact h x (List.mem_of_find?_eq_some hf)

/-- After `AddOption` on a store with unique option names the option occurs
once in its section, with the new value. -/
theorem filter_specAddOption (c : Store) (s n v : List Char) (h : UniqueOptions c) :
    (specOptions (specAddOption c s n v) s).filter (fun o => o.1 == n) = [(n, v)] := by
  unfold specAddOption
  rw [specOptions_setInSection s n v _ (specAddSection_has c s)]
  exact filter_setOption n v _ (nodup_specOptions _ s (uniqueOptions_specAddSection c s h))


/-! ## Errors leave the store as it is -/

/-- Where the loop returns an error, the text splits into whole lines read
without error and a rest on which the error arises: a first line that cannot be
parsed, or an unterminated end on which the reader fails. -/
theorem readFrom_error_cases {σ : Type} (P : Collab σ) (e : Error) :
    ∀ (n : Nat) (t : List Char) (st0 st1 : State σ) (err : Error), t.length ≤ n →
      readFrom P ⟨t, e⟩ st0 = Outcome.returned (st1, some err) →
      ∃ pre rest, t = pre ++ rest ∧ WholeLines pre ∧
        readFrom P ⟨pre, Error.EOF⟩ st0 = Outcome.returned (st1, none) ∧
        ((∃ raw post, rest = raw ++ '\n' :: post ∧ '\n' ∉ raw ∧
            Unparsable st1 (TrimSpace raw) ∧ err = parseError (TrimSpace raw)) ∨
          ('\n' ∉ rest ∧ err = e ∧ e ≠ Error.EOF)) := by
  intro n
  induction n with
  | zero =>
    intro t st0 st1 err hn h
    have hp : t = [] := List.length_eq_zero.mp (by omega)
    subst hp
    rw [readFrom_last P [] e st0 (by simp)] at h
    by_cases he : e = Error.EOF
    · simp [he] at h
    · simp only [he, if_false, Outcome.returned.injEq, Prod.mk.injEq, Option.some.injEq] at h
      refine ⟨[], [], rfl, Or.inl rfl, ?_, Or.inr ⟨by simp, h.2.symm, he⟩⟩
      rw [readFrom_last P [] Error.EOF st0 (by simp), h.1]
      rfl
  | succ n ih =>
    intro t st0 st1 err hn h
    by_cases hm : '\n' ∈ t
    · obtain ⟨raw, rest, h1, h2⟩ := split_first _ _ hm
      subst h2
      rw [readFrom_line P raw rest e st0 h1] at h
      cases hr : readLine P st0 (TrimSpace raw) with
      | none => simp [hr] at h
      | some s =>
        cases s with
        | ret err1 =>
          simp only [hr, Outcome.returned.injEq, Prod.mk.injEq, Option.some.injEq] at h
          obtain ⟨hst, herr⟩ := h
          subst hst
          subst herr
          obtain ⟨hu, he⟩ := (readLine_ret_iff P st0 _ err1).mp hr
          refine ⟨[], raw ++ '\n' :: rest, rfl, Or.inl rfl, ?_,
            Or.inl ⟨raw, rest, rfl, h1, hu, he⟩⟩
          rw [readFrom_last P [] Error.EOF st0 (by simp)]
          rfl
        | next st2 =>
          simp only [hr] at h
          have hlen : rest.length ≤ n := by simp at hn; omega
          obtain ⟨pre, tl, e1, e2, e3, e4⟩ := ih rest st2 st1 err hlen h
          refine ⟨raw ++ '\n' :: pre, tl, by simp [e1], wholeLines_line raw pre e2, ?_, e4⟩
          rw [readFrom_line P raw pre Error.EOF st0 h1, hr]
          exact e3
    · rw [readFrom_last P t e st0 hm] at h
      by_cases he : e = Error.EOF
      · simp [he] at h
      · simp only [he, if_false, Outcome.returned.injEq, Prod.mk.injEq,
          Option.some.injEq] at h
        refine ⟨[], t, rfl, Or.inl rfl, ?_, Or.inr ⟨hm, h.2.symm, he⟩⟩
        rw [readFrom_last P [] Error.EOF st0 (by simp), h.1]
        rfl

theorem read_returned {σ : Type} (P : Collab σ) (c : σ) (rd : Reader) (c1 : σ)
    (err : Option Error) (h : read P c rd = Outcome.returned (c1, err)) :
    ∃ st, readFrom P rd ⟨c, [], []⟩ = Outcome.returned (st, err) ∧ st.c = c1 := by
  unfold read at h
  cases hr : readFrom P rd ⟨c, [], []⟩ with
  | returned r =>
    obtain ⟨st, err1⟩ := r
    simp only [hr, Outcome.returned.injEq, Prod.mk.injEq] at h
    exact ⟨st, by rw [h.2], h.1⟩
  | panicked => simp [hr] at h
  | outOfFuel => simp [hr] at h

/-- C11: no rollback on failure.  Whenever `read` returns an error, the text
splits into the whole lines before the offending line and the rest; the store
`read` leaves is exactly the store that reading those lines alone leaves,
without error.  The offending line is the first line of the rest, which cannot
be parsed, or the unterminated end of the text on which the reader failed. -/
theorem no_rollback_on_failure {σ : Type} (P : Collab σ) (c c1 : σ) (t : List Char)
    (e err : Error) (h : read P c ⟨t, e⟩ = Outcome.returned (c1, some err)) :
    ∃ pre rest, t = pre ++ rest ∧ WholeLines pre ∧
      read P c ⟨pre, Error.EOF⟩ = Outcome.returned (c1, none) ∧
      ((∃ raw post, rest = raw ++ '\n' :: post ∧ '\n' ∉ raw ∧
          err = parseError (TrimSpace raw)) ∨
        ('\n' ∉ rest ∧ err = e ∧ e ≠ Error.EOF)) := by
  obtain ⟨st, hst, hc⟩ := read_returned P c _ c1 _ h
  obtain ⟨pre, rest, e1, e2, e3, e4⟩ :=
    readFrom_error_cases P e t.length t _ st err (Nat.le_refl _) hst
  refine ⟨pre, rest, e1, e2, ?_, ?_⟩
  · rw [← hc]
    exact read_eq P c _ st none e3
  · rcases e4 with ⟨raw, post, a1, a2, _, a4⟩ | a
    · exact Or.inl ⟨raw, post, a1, a2, a4⟩
    · exact Or.inr a

/-- C11, at `[s]`, `a=1`, `[t]`, `junk`, `b=2`: the error is the one for `junk`,
and the store holds `s.a = 1` and the section `t`, as after `[s]`, `a=1`, `[t]`
alone; `b=2` is not read. -/
theorem no_rollback_on_failure_witness :
    (∃ pre rest, "[s]\na=1\n[t]\njunk\nb=2\n".toList = pre ++ rest ∧ WholeLines pre ∧
      read specCollab [] ⟨pre, Error.EOF⟩ =
        Outcome.returned
          ([("s".toList, [("a".toList, "1".toList)]), ("t".toList, [])], none) ∧
      ((∃ raw post, rest = raw ++ '\n' :: post ∧ '\n' ∉ raw ∧
          Error.New "could not parse line: junk".toList = parseError (TrimSpace raw)) ∨
        ('\n' ∉ rest ∧ Error.New "could not parse line: junk".toList = Error.EOF ∧
          Error.EOF ≠ Error.EOF))) ∧
    read specCollab [] ⟨"[s]\na=1\n[t]\n".toList, Error.EOF⟩ =
      Outcome.returned ([("s".toList, [("a".toList, "1".toList)]), ("t".toList, [])], none) :=
  ⟨no_rollback_on_failure specCollab []
      [("s".toList, [("a".toList, "1".toList)]), ("t".toList, [])]
      "[s]\na=1\n[t]\njunk\nb=2\n".toList Error.EOF
      (Error.New "could not parse line: junk".toList) (by decide),
    by decide⟩

/-! ## The store only grows -/

theorem specLookup_eq_find (c : Store) (s o : List Char) :
    specLookup c s o = ((specOptions c s).find? (fun x => x.1 == o)).map Prod.snd := by
  unfold specLookup specOptions
  cases c.find? (fun x => x.1 == s) with
  | none => rfl
  | some x =>
    simp only []
    cases x.2.find? (fun y => y.1 == o) <;> rfl

theorem specOptions_specAddSection (c : Store) (s1 s : List Char) :
    specOptions (specAddSection c s1) s = specOptions c s := by
  unfold specAddSection
  split
  · rfl
  · unfold specOptions
    rw [List.find?_append]
    cases hf : c.find? (fun x => x.1 == s) with
    | none =>
      by_cases h : s1 = s
      · simp [h]
      · simp [h]
    | some x => simp

theorem specOptions_setInSection_ne (s1 n v s : List Char) (c : Store) (h : s1 ≠ s) :
    specOptions (setInSection s1 n v c) s = specOptions c s := by
  induction c with
  | nil => rfl
  | cons x c ih =>
    obtain ⟨t, os⟩ := x
    by_cases ht : t = s1
    · subst ht
      simp [specOptions, setInSection, List.find?_cons, beq_false_of_ne h]
    · by_cases hs : t = s
      · subst hs
        simp [specOptions, setInSection, ht, List.find?_cons]
      · simp only [specOptions, setInSection, ht, if_false, List.find?_cons,
          beq_false_of_ne hs] at ih ⊢
        exact ih

theorem find_setOption_isSome (n v o : List Char) (os : List (List Char × List Char))
    (h : (os.find? (fun x => x.1 == o)).isSome = true) :
    ((setOption n v os).find? (fun x => x.1 == o)).isSome = true := by
  induction os with
  | nil => simp at h
  | cons x os ih =>
    obtain ⟨m, w⟩ := x
    by_cases hm : m = n
    · subst hm
      by_cases ho : m = o
      · subst ho
        simp [setOption, List.find?_cons]
      · simp only [List.find?_cons, beq_false_of_ne ho] at h
        simp only [setOption, if_true, List.find?_cons, beq_false_of_ne ho]
        exact h
    · by_cases ho : m = o
      · subst ho
        simp [setOption, hm, List.find?_cons]
      · simp only [List.find?_cons, beq_false_of_ne ho] at h
        simp only [setOption, hm, if_false, List.find?_cons, beq_false_of_ne ho]
        exact ih h

/-- In the store of the specification `AddSection` keeps every option. -/
theorem specLookup_specAddSection (c : Store) (s1 s o : List Char) :
    specLookup (specAddSection c s1) s o = specLookup c s o := by
  rw [specLookup_eq_find, specLookup_eq_find, specOptions_specAddSection]

/-- In the store of the specification `AddOption` keeps every option present. -/
theorem specLookup_specAddOption_isSome (c : Store) (s1 n v s o : List Char)
    (h : (specLookup c s o).isSome = true) :
    (specLookup (specAddOption c s1 n v) s o).isSome = true := by
  rw [specLookup_eq_find] at h ⊢
  simp only [Option.isSome_map'] at h ⊢
  unfold specAddOption
  by_cases hs : s1 = s
  · subst hs
    rw [specOptions_setInSection s1 n v _ (specAddSection_has c s1),
      specOptions_specAddSection]
    exact find_setOption_isSome n v o _ h
  · rw [specOptions_setInSection_ne s1 n v s _ hs, specOptions_specAddSection]
    exact h

theorem specHasSection_setInSection (s1 n v s : List Char) (c : Store) :
    specHasSection (setInSection s1 n v c) s = specHasSection c s := by
  induction c with
  | nil => rfl
  | cons x c ih =>
    obtain ⟨t, os⟩ := x
    unfold specHasSection at ih ⊢
    by_cases ht : t = s1
    · simp [setInSection, ht]
    · simp [setInSection, ht, ih]

/-- In the store of the specification `AddSection` keeps every section. -/
theorem specHasSection_specAddSection (c : Store) (s1 s : List Char)
    (h : specHasSection c s = true) : specHasSection (specAddSection c s1) s = true := by
  unfold specAddSection
  split
  · exact h
  · unfold specHasSection at h ⊢
    rw [List.any_append, h]
    rfl

/-- In the store of the specification `AddOption` keeps every section. -/
theorem specHasSection_specAddOption (c : Store) (s1 n v s : List Char)
    (h : specHasSection c s = true) : specHasSection (specAddOption c s1 n v) s = true := by
  unfold specAddOption
  rw [specHasSection_setInSection]
  exact specHasSection_specAddSection c s1 s h

theorem read_invariant {σ : Type} (P : Collab σ) (inv : σ → Prop)
    (hS : ∀ c s, inv c → inv (P.AddSection c s))
    (hO : ∀ c s n v, inv c → inv (P.AddOption c s n v)) (c c1 : σ) (rd : Reader)
    (err : Option Error) (hc : inv c) (h : read P c rd = Outcome.returned (c1, err)) :
    inv c1 := by
  obtain ⟨st, hst, hc1⟩ := read_returned P c rd c1 err h
  obtain ⟨t, e⟩ := rd
  rw [← hc1]
  exact readFrom_invariant P inv hS hO e t.length t ⟨c, [], []⟩ st err (Nat.le_refl _) hc hst

/-- C12: the parser never deletes.  The only mutations `read` performs on the
store are `AddSection` and `AddOption`: over a store in which neither of them
removes a section or an option, every section present before `read` is present
after it and every option present before is present after it, whether `read`
returns nil or an error. -/
theorem read_never_deletes {σ : Type} (P : Collab σ)
    (hasSection : σ → List Char → Prop) (hasOption : σ → List Char → List Char → Prop)
    (hSS : ∀ c s1 s, hasSection c s → hasSection (P.AddSection c s1) s)
    (hOS : ∀ c s1 n v s, hasSection c s → hasSection (P.AddOption c s1 n v) s)
    (hSO : ∀ c s1 s o, hasOption c s o → hasOption (P.AddSection c s1) s o)
    (hOO : ∀ c s1 n v s o, hasOption c s o → hasOption (P.AddOption c s1 n v) s o)
    (c c1 : σ) (rd : Reader) (err : Option Error)
    (h : read P c rd = Outcome.returned (c1, err)) :
    (∀ s, hasSection c s → hasSection c1 s) ∧ (∀ s o, hasOption c s o → hasOption c1 s o) := by
  constructor
  · intro s hs
    exact read_invariant P (fun x => hasSection x s) (fun x s1 hx => hSS x s1 s hx)
      (fun x s1 n v hx => hOS x s1 n v s hx) c c1 rd err hs h
  · intro s o hso
    exact read_invariant P (fun x => hasOption x s o) (fun x s1 hx => hSO x s1 s o hx)
      (fun x s1 n v hx => hOO x s1 n v s o hx) c c1 rd err hso h

/-- C12, on the store of the specification holding `s.a = 1` and `s.k = v`, at
the text `[s]`, `a=2`, `[t]`, `junk`: `read` returns the error for `junk`, and
every section and option of the initial store is still present. -/
theorem read_never_deletes_witness :
    ((∀ s, specHasSection [("s".toList, [("a".toList, "1".toList), ("k".toList, "v".toList)])] s
          = true →
        specHasSection [("s".toList, [("a".toList, "2".toList), ("k".toList, "v".toList)]),
          ("t".toList, [])] s = true) ∧
      (∀ s o,
        (specLookup [("s".toList, [("a".toList, "1".toList), ("k".toList, "v".toList)])] s o).isSome
          = true →
        (specLookup [("s".toList, [("a".toList, "2".toList), ("k".toList, "v".toList)]),
          ("t".toList, [])] s o).isSome = true)) ∧
    read specCollab [("s".toList, [("a".toList, "1".toList), ("k".toList, "v".toList)])]
        ⟨"[s]\na=2\n[t]\njunk\n".toList, Error.EOF⟩ =
      Outcome.returned
        ([("s".toList, [("a".toList, "2".toList), ("k".toList, "v".toList)]), ("t".toList, [])],
          some (Error.New "could not parse line: junk".toList)) :=
  ⟨read_never_deletes specCollab (fun c s => specHasSection c s = true)
      (fun c s o => (specLookup c s o).isSome = true)
      (fun c s1 s h => specHasSection_specAddSection c s1 s h)
      (fun c s1 n v s h => specHasSection_specAddOption c s1 n v s h)
      (fun c s1 s o h => by
        show (specLookup (specAddSection c s1) s o).isSome = true
        rw [specLookup_specAddSection]
        exact h)
      (fun c s1 n v s o h => specLookup_specAddOption_isSome c s1 n v s o h)
      [("s".toList, [("a".toList, "1".toList), ("k".toList, "v".toList)])]
      [("s".toList, [("a".toList, "2".toList), ("k".toList, "v".toList)]), ("t".toList, [])]
      ⟨"[s]\na=2\n[t]\njunk\n".toList, Error.EOF⟩
      (some (Error.New "could not parse line: junk".toList)) (by decide),
    by decide⟩

/-! ## The store of the specification never shrinks -/

/-- On the store of the specification `read` keeps every section and every
option, on every input and whatever it returns. -/
theorem spec_read_keeps_entries (c c1 : Store) (rd : Reader) (err : Option Error)
    (h : read specCollab c rd = Outcome.returned (c1, err)) :
    (∀ s, specHasSection c s = true → specHasSection c1 s = true) ∧
      (∀ s o, (specLookup c s o).isSome = true → (specLookup c1 s o).isSome = true) := by
  constructor
  · intro s hs
    exact read_invariant specCollab (fun x => specHasSection x s = true)
      (fun x s1 hx => specHasSection_specAddSection x s1 s hx)
      (fun x s1 n v hx => specHasSection_specAddOption x s1 n v s hx) c c1 rd err hs h
  · intro s o hso
    exact read_invariant specCollab (fun x => (specLookup x s o).isSome = true)
      (fun x s1 hx => by
        show (specLookup (specAddSection x s1) s o).isSome = true
        rw [specLookup_specAddSection]
        exact hx)
      (fun x s1 n v hx => specLookup_specAddOption_isSome x s1 n v s o hx) c c1 rd err hso h

/-! ## Overwriting an option: later lines -/

theorem head?_filter_eq_find (p : (List Char × List Char) → Bool)
    (os : List (List Char × List Char)) : (os.filter p).head? = os.find? p := by
  induction os with
  | nil => rfl
  | cons o os ih =>
    by_cases h : p o = true
    · simp [List.filter_cons, List.find?_cons, h]
    · simp [List.filter_cons, List.find?_cons, h, ih]

theorem filter_setOption_ne (m v n : List Char) (os : List (List Char × List Char))
    (h : m ≠ n) :
    (setOption m v os).filter (fun o => o.1 == n) = os.filter (fun o => o.1 == n) := by
  induction os with
  | nil => simp [setOption, List.filter_cons, beq_false_of_ne h]
  | cons o os ih =>
    obtain ⟨k, w⟩ := o
    by_cases hk : k = m
    · subst hk
      simp [setOption, List.filter_cons, beq_false_of_ne h]
    · simp only [setOption, hk, if_false, List.filter_cons, ih]

/-- In the store of the specification `AddOption` on another section or another
option name leaves the option `n` of the section `sect` as it is. -/
theorem filter_specAddOption_other (c : Store) (s1 m v sect n : List Char)
    (h : s1 ≠ sect ∨ m ≠ n) :
    (specOptions (specAddOption c s1 m v) sect).filter (fun o => o.1 == n) =
      (specOptions c sect).filter (fun o => o.1 == n) := by
  unfold specAddOption
  by_cases hs : s1 = sect
  · subst hs
    have hm : m ≠ n := by
      rcases h with h | h
      · exact absurd rfl h
      · exact h
    rw [specOptions_setInSection s1 m v _ (specAddSection_has c s1),
      specOptions_specAddSection, filter_setOption_ne m v n _ hm]
  · rw [specOptions_setInSection_ne s1 m v sect _ hs, specOptions_specAddSection]

/-- Lines that do not write the option `n` of the section `sect` leave it as it
is in the store of the specification. -/
theorem readFrom_keeps_option (sect n tail : List Char) (e : Error) (htail : '\n' ∉ tail)
    (ls : List (List Char)) :
    ∀ (st st1 : State Store) (err : Option Error), (∀ m ∈ ls, '\n' ∉ m) →
      noLaterWrite specCollab sect n st ls = true →
      readFrom specCollab ⟨unlines ls ++ tail, e⟩ st = Outcome.returned (st1, err) →
      (specOptions st1.c sect).filter (fun o => o.1 == n) =
        (specOptions st.c sect).filter (fun o => o.1 == n) := by
  induction ls with
  | nil =>
    intro st st1 err _ _ h
    rw [unlines, List.nil_append, readFrom_last specCollab tail e st htail] at h
    split at h <;> simp only [Outcome.returned.injEq, Prod.mk.injEq] at h <;> rw [← h.1]
  | cons raw ls ih =>
    intro st st1 err hls hno h
    have hraw : '\n' ∉ raw := hls raw (by simp)
    have hrest : ∀ m ∈ ls, '\n' ∉ m := fun m hm => hls m (by simp [hm])
    rw [unlines, List.append_assoc, List.cons_append,
      readFrom_line specCollab raw _ e st hraw] at h
    simp only [noLaterWrite, Bool.and_eq_true, Bool.not_eq_true', decide_eq_false_iff_not]
      at hno
    obtain ⟨hw, hnext⟩ := hno
    rw [readLine_eq, caseDefault_eq] at h hnext
    unfold WritesOption at hw
    split_ifs at h hnext with h1 h2 h3 h4
    · exact ih st st1 err hrest hnext h
    · rw [ih _ st1 err hrest hnext h]
      show (specOptions (specAddSection st.c _) sect).filter _ = _
      rw [specOptions_specAddSection]
    · rw [ih _ st1 err hrest hnext h]
      apply filter_specAddOption_other
      by_contra hc
      push_neg at hc
      exact hw ⟨h1, h2, hc.1, Or.inl ⟨h3, hc.2⟩⟩
    · rw [ih _ st1 err hrest hnext h]
      apply filter_specAddOption_other
      by_contra hc
      push_neg at hc
      exact hw ⟨h1, h2, hc.1, Or.inr ⟨by omega, h4.1, h4.2, hc.2⟩⟩
    · simp only [Outcome.returned.injEq, Prod.mk.injEq] at h
      rw [← h.1]

/-- C10 (as stated, refuted): in `[s]`, `a=1`, `a=2`, `a=3` the key/value lines
`a=1` and `a=2` have the same option name in the same section and no
continuation line follows `a=2`, yet after `read` the value of `s.a` is `3`,
not the value `2` of the second line. -/
theorem later_key_value_overwrites_again :
    (∀ l ∈ ["a=1".toList, "a=2".toList, "a=3".toList],
        ¬ Skipped (TrimSpace l) ∧ ¬ Bracketed (TrimSpace l) ∧
          0 < IndexAny (TrimSpace l) ['=', ':'] ∧
          TrimSpace ((TrimSpace l).take (IndexAny (TrimSpace l) ['=', ':']).toNat) =
            "a".toList) ∧
      read specCollab [] ⟨"[s]\na=1\na=2\na=3\n".toList, Error.EOF⟩ =
        Outcome.returned ([("s".toList, [("a".toList, "3".toList)])], none) ∧
      specLookup [("s".toList, [("a".toList, "3".toList)])] "s".toList "a".toList ≠
        some "2".toList := by
  decide

/-- C10 (amended, on the store of the specification): re-adding an option
overwrites.  Start from a store with unique option names and let the lines
before be read without error.  After a key/value line, if no later line writes
its option again (no continuation line of it follows and no further key/value
line with its name is read in its section), `read` leaves the option exactly
once in the section that was current, with the value of that line, whether or
not an earlier key/value line of the section had set the same option, and
whatever `read` returns. -/
theorem readd_overwrites (c0 : Store) (pre raw l tail : List Char) (ls : List (List Char))
    (e : Error) (st : State Store) (hwf : UniqueOptions c0) (hpre : WholeLines pre)
    (hrun : readFrom specCollab ⟨pre, Error.EOF⟩ ⟨c0, [], []⟩ = Outcome.returned (st, none))
    (hraw : '\n' ∉ raw) (hl : TrimSpace raw = l) (hskip : ¬ Skipped l)
    (hsec : ¬ Bracketed l) (hi : 0 < IndexAny l ['=', ':'])
    (hls : ∀ m ∈ ls, '\n' ∉ m) (htail : '\n' ∉ tail)
    (hno : noLaterWrite specCollab st.sect (TrimSpace (l.take (IndexAny l ['=', ':']).toNat))
      ⟨specAddOption st.c st.sect (TrimSpace (l.take (IndexAny l ['=', ':']).toNat))
          (TrimSpace (specStripComments (l.drop ((IndexAny l ['=', ':']).toNat + 1)))),
        st.sect, TrimSpace (l.take (IndexAny l ['=', ':']).toNat)⟩ ls = true) :
    ∃ c1 err, read specCollab c0 ⟨pre ++ (raw ++ '\n' :: (unlines ls ++ tail)), e⟩ =
        Outcome.returned (c1, err) ∧
      (specOptions c1 st.sect).filter
          (fun o => o.1 == TrimSpace (l.take (IndexAny l ['=', ':']).toNat)) =
        [(TrimSpace (l.take (IndexAny l ['=', ':']).toNat),
          TrimSpace (specStripComments (l.drop ((IndexAny l ['=', ':']).toNat + 1))))] ∧
      specLookup c1 st.sect (TrimSpace (l.take (IndexAny l ['=', ':']).toNat)) =
        some (TrimSpace (specStripComments (l.drop ((IndexAny l ['=', ':']).toNat + 1)))) := by
  have hst : UniqueOptions st.c :=
    readFrom_invariant specCollab UniqueOptions uniqueOptions_specAddSection
      uniqueOptions_specAddOption Error.EOF pre.length pre _ st none (Nat.le_refl _) hwf hrun
  obtain ⟨st3, err, h3⟩ := readFrom_total specCollab e (unlines ls ++ tail).length
    (unlines ls ++ tail)
    ⟨specAddOption st.c st.sect (TrimSpace (l.take (IndexAny l ['=', ':']).toNat))
        (TrimSpace (specStripComments (l.drop ((IndexAny l ['=', ':']).toNat + 1)))),
      st.sect, TrimSpace (l.take (IndexAny l ['=', ':']).toNat)⟩ (Nat.le_refl _)
  have hkeep := readFrom_keeps_option st.sect _ tail e htail ls _ st3 err hls hno h3
  have hfil := filter_specAddOption st.c st.sect
    (TrimSpace (l.take (IndexAny l ['=', ':']).toNat))
    (TrimSpace (specStripComments (l.drop ((IndexAny l ['=', ':']).toNat + 1)))) hst
  rw [← hkeep] at hfil
  refine ⟨st3.c, err, ?_, hfil, ?_⟩
  · apply read_eq specCollab c0 _ st3
    rw [readFrom_append specCollab _ e pre.length pre _ (Nat.le_refl _) hpre, hrun]
    simp only []
    rw [readFrom_key_value specCollab raw _ l e st hraw hl hskip hsec hi]
    exact h3
  · rw [specLookup_eq_find, ← head?_filter_eq_find, hfil]
    rfl

/-- C10, at `[s]`, `a=1`, `a=2`, `b=3`, `  x`, `[t]`, `a=9`: the lines after
`a=2` write `s.b` and `t.a` only, and section `s` holds the single option `a`
with the value `2`; so does it after `[s]`, `a=1`, `a=2` alone. -/
theorem readd_overwrites_witness :
    (∃ c1 err, read specCollab [] ⟨"[s]\na=1\n".toList ++ ("a=2".toList ++ '\n' ::
          (unlines ["b=3".toList, "  x".toList, "[t]".toList, "a=9".toList] ++ [])),
          Error.EOF⟩ = Outcome.returned (c1, err) ∧
      (specOptions c1 "s".toList).filter (fun o => o.1 == "a".toList) =
        [("a".toList, "2".toList)] ∧
      specLookup c1 "s".toList "a".toList = some "2".toList) ∧
    read specCollab [] ⟨"[s]\na=1\na=2\nb=3\n  x\n[t]\na=9\n".toList, Error.EOF⟩ =
      Outcome.returned ([("s".toList, [("a".toList, "2".toList), ("b".toList, "3\nx".toList)]),
        ("t".toList, [("a".toList, "9".toList)])], none) ∧
    read specCollab [] ⟨"[s]\na=1\na=2\n".toList, Error.EOF⟩ =
      Outcome.returned ([("s".toList, [("a".toList, "2".toList)])], none) :=
  ⟨readd_overwrites [] "[s]\na=1\n".toList "a=2".toList "a=2".toList []
      ["b=3".toList, "  x".toList, "[t]".toList, "a=9".toList] Error.EOF
      ⟨[("s".toList, [("a".toList, "1".toList)])], "s".toList, "a".toList⟩
      (by decide) (by decide) (by decide) (by decide) (by decide) (by decide) (by decide)
      (by decide) (by decide) (by decide) (by decide),
    by decide, by decide⟩

/-! ## Priority of the line classes -/

/-- C13: the classes are tried in order.  A line whose trimmed text starts with
`#`, with `;` or, in any letter case, with `rem` is skipped, whatever else it
contains: the store, the current section and the current option stay as they
are.  A line that starts with `[` and ends with `]` is a section header,
whatever stands between the brackets: the loop calls `AddSection` and no
option is added. -/
theorem classification_priority {σ : Type} (P : Collab σ) (raw rest l : List Char)
    (e : Error) (st : State σ) (hraw : '\n' ∉ raw) (hl : TrimSpace raw = l) :
    ((l.head? = some '#' ∨ l.head? = some ';' ∨ ToLower (l.take 3) = ['r', 'e', 'm']) →
        readFrom P ⟨raw ++ '\n' :: rest, e⟩ st = readFrom P ⟨rest, e⟩ st) ∧
      ((l.head? = some '[' ∧ l.getLast? = some ']') →
        readFrom P ⟨raw ++ '\n' :: rest, e⟩ st =
          readFrom P ⟨rest, e⟩
            ⟨P.AddSection st.c (TrimSpace l.tail.dropLast), TrimSpace l.tail.dropLast, []⟩) := by
  subst hl
  constructor
  · intro h
    exact readFrom_skipped P raw rest e st hraw (Or.inr h)
  · intro h
    exact readFrom_section P raw rest _ e st hraw rfl h

/-- C13, at `remote=1`, `#a=b`, `;[x]` and `[a=b]`: the first three add nothing,
the last adds the section `a=b` and no option. -/
theorem classification_priority_witness :
    (readFrom specCollab ⟨"remote=1\n".toList, Error.EOF⟩ ⟨[], "s".toList, "a".toList⟩ =
        readFrom specCollab ⟨[], Error.EOF⟩ ⟨[], "s".toList, "a".toList⟩ ∧
      readFrom specCollab ⟨"[a=b]\n".toList, Error.EOF⟩ ⟨[], "s".toList, "a".toList⟩ =
        readFrom specCollab ⟨[], Error.EOF⟩ ⟨[("a=b".toList, [])], "a=b".toList, []⟩) ∧
    read specCollab [] ⟨"remote=1\n#a=b\n;[x]\nRem: x\n".toList, Error.EOF⟩ =
      Outcome.returned ([], none) ∧
    read specCollab [] ⟨"[a=b]\n".toList, Error.EOF⟩ =
      Outcome.returned ([("a=b".toList, [])], none) :=
  ⟨⟨(classification_priority specCollab "remote=1".toList [] "remote=1".toList Error.EOF
        ⟨[], "s".toList, "a".toList⟩ (by decide) (by decide)).1 (by decide),
      (classification_priority specCollab "[a=b]".toList [] "[a=b]".toList Error.EOF
        ⟨[], "s".toList, "a".toList⟩ (by decide) (by decide)).2 (by decide)⟩,
    by decide, by decide⟩

/-! ## Texts without section header -/

theorem unlines_append (ls1 ls2 : List (List Char)) :
    unlines (ls1 ++ ls2) = unlines ls1 ++ unlines ls2 := by
  induction ls1 with
  | nil => rfl
  | cons l ls ih => simp [unlines, ih]

theorem wholeLines_unlines (ls : List (List Char)) : WholeLines (unlines ls) := by
  induction ls with
  | nil => exact Or.inl rfl
  | cons l ls ih => exact wholeLines_line l (unlines ls) ih

/-- Every text is a sequence of newline-terminated lines followed by an
unterminated end. -/
theorem exists_unlines :
    ∀ (n : Nat) (t : List Char), t.length ≤ n →
      ∃ ls tail, t = unlines ls ++ tail ∧ (∀ l ∈ ls, '\n' ∉ l) ∧ '\n' ∉ tail := by
  intro n
  induction n with
  | zero =>
    intro t hn
    have hp : t = [] := List.length_eq_zero.mp (by omega)
    exact ⟨[], [], by simp [hp, unlines], by simp, by simp⟩
  | succ n ih =>
    intro t hn
    by_cases hm : '\n' ∈ t
    · obtain ⟨raw, rest, h1, h2⟩ := split_first _ _ hm
      subst h2
      obtain ⟨ls, tail, e1, e2, e3⟩ := ih rest (by simp at hn; omega)
      refine ⟨raw :: ls, tail, by simp [unlines, e1], ?_, e3⟩
      intro l hl
      rcases List.mem_cons.mp hl with h | h
      · rw [h]
        exact h1
      · exact e2 l h
    · exact ⟨[], t, by simp [unlines], by simp, hm⟩

/-- Without a section header the current section stays empty. -/
theorem readFrom_sect_nil {σ : Type} (P : Collab σ) (ls : List (List Char)) :
    ∀ (st0 st : State σ) (err : Option Error),
      (∀ l ∈ ls, '\n' ∉ l ∧ ¬ Bracketed (TrimSpace l)) → st0.sect = [] →
      readFrom P ⟨unlines ls, Error.EOF⟩ st0 = Outcome.returned (st, err) → st.sect = [] := by
  induction ls with
  | nil =>
    intro st0 st err _ hs h
    rw [unlines, readFrom_last P [] Error.EOF st0 (by simp)] at h
    simp only [if_true, Outcome.returned.injEq, Prod.mk.injEq] at h
    rw [← h.1]
    exact hs
  | cons l ls ih =>
    intro st0 st err hls hs h
    have hl := hls l (by simp)
    have hrest : ∀ x ∈ ls, '\n' ∉ x ∧ ¬ Bracketed (TrimSpace x) :=
      fun x hx => hls x (by simp [hx])
    rw [unlines, readFrom_line P l _ Error.EOF st0 hl.1, readLine_eq, caseDefault_eq] at h
    split_ifs at h with h1 h2 h3 h4
    · exact ih st0 st err hrest hs h
    · exact absurd h2 hl.2
    · refine ih _ st err hrest ?_ h
      exact hs
    · refine ih _ st err hrest ?_ h
      exact hs
    · simp only [Outcome.returned.injEq, Prod.mk.injEq] at h
      rw [← h.1]
      exact hs

/-- C14 (as stated, refuted): the text `junk`, `a=1` has no section-header line
and `a=1` is a key/value line in it, yet the line is not added: `read` returns
the parse error for `junk` and stops, and the store stays empty. -/
theorem key_value_after_parse_error_not_added :
    (∀ l ∈ ["junk".toList, "a=1".toList], ¬ Bracketed (TrimSpace l)) ∧
      ¬ Skipped (TrimSpace "a=1".toList) ∧
      0 < IndexAny (TrimSpace "a=1".toList) ['=', ':'] ∧
      read specCollab [] ⟨"junk\na=1\n".toList, Error.EOF⟩ =
        Outcome.returned ([], some (Error.New "could not parse line: junk".toList)) := by
  decide

/-- C14 (amended): on a text without section-header line (and, more generally,
as long as no section-header line has come) `read` always returns, and every
newline-terminated key/value line it reaches, the lines before it having been
read without error, is met with the empty current section: the loop calls
`AddOption` with the empty string as section name, makes the name the current
option and goes on with the next line. -/
theorem key_value_without_section {σ : Type} (P : Collab σ) (c : σ)
    (ls : List (List Char)) (tail : List Char) (e : Error)
    (hls : ∀ l ∈ ls, '\n' ∉ l ∧ ¬ Bracketed (TrimSpace l)) :
    (∃ c1 err, read P c ⟨unlines ls ++ tail, e⟩ = Outcome.returned (c1, err)) ∧
    ∀ (ls1 ls2 : List (List Char)) (raw : List Char) (st : State σ),
      ls = ls1 ++ raw :: ls2 →
      readFrom P ⟨unlines ls1, Error.EOF⟩ ⟨c, [], []⟩ = Outcome.returned (st, none) →
      ¬ Skipped (TrimSpace raw) → 0 < IndexAny (TrimSpace raw) ['=', ':'] →
      st.sect = [] ∧
      readFrom P ⟨unlines (raw :: ls2) ++ tail, e⟩ st =
        readFrom P ⟨unlines ls2 ++ tail, e⟩
          ⟨P.AddOption st.c []
              (TrimSpace ((TrimSpace raw).take (IndexAny (TrimSpace raw) ['=', ':']).toNat))
              (TrimSpace (P.stripComments
                ((TrimSpace raw).drop ((IndexAny (TrimSpace raw) ['=', ':']).toNat + 1)))),
            [],
            TrimSpace ((TrimSpace raw).take (IndexAny (TrimSpace raw) ['=', ':']).toNat)⟩ := by
  constructor
  · obtain ⟨st1, err, h⟩ :=
      readFrom_total P e (unlines ls ++ tail).length (unlines ls ++ tail) ⟨c, [], []⟩
        (Nat.le_refl _)
    exact ⟨st1.c, err, read_eq P c _ st1 err h⟩
  · intro ls1 ls2 raw st hsplit hrun hskip hi
    subst hsplit
    have h1 : ∀ l ∈ ls1, '\n' ∉ l ∧ ¬ Bracketed (TrimSpace l) :=
      fun l hl => hls l (by simp [hl])
    have hraw := hls raw (by simp)
    have hs : st.sect = [] := readFrom_sect_nil P ls1 ⟨c, [], []⟩ st none h1 rfl hrun
    refine ⟨hs, ?_⟩
    rw [unlines, List.append_assoc, List.cons_append,
      readFrom_key_value P raw _ _ e st hraw.1 rfl hskip hraw.2 hi, hs]

/-- C14, at `a=1`, `# c`, `b : 2`: both options are added under the empty
section name and `read` returns nil. -/
theorem key_value_without_section_witness :
    ((∃ c1 err, read specCollab [] ⟨unlines ["a=1".toList, "# c".toList, "b : 2".toList] ++ [],
        Error.EOF⟩ = Outcome.returned (c1, err)) ∧
      readFrom specCollab ⟨unlines ["b : 2".toList] ++ [], Error.EOF⟩
          ⟨[([], [("a".toList, "1".toList)])], [], "a".toList⟩ =
        readFrom specCollab ⟨unlines [] ++ [], Error.EOF⟩
          ⟨[([], [("a".toList, "1".toList), ("b".toList, "2".toList)])], [], "b".toList⟩) ∧
    read specCollab [] ⟨"a=1\n# c\nb : 2\n".toList, Error.EOF⟩ =
      Outcome.returned ([([], [("a".toList, "1".toList), ("b".toList, "2".toList)])], none) :=
  ⟨⟨(key_value_without_section specCollab []
        ["a=1".toList, "# c".toList, "b : 2".toList] [] Error.EOF (by decide)).1,
      ((key_value_without_section specCollab []
        ["a=1".toList, "# c".toList, "b : 2".toList] [] Error.EOF (by decide)).2
        ["a=1".toList, "# c".toList] [] "b : 2".toList
        ⟨[([], [("a".toList, "1".toList)])], [], "a".toList⟩ rfl (by decide) (by decide)
        (by decide)).2⟩,
    by decide⟩

/-! ## Failing readers -/

/-- C15: stream errors propagate.  When the reader fails with an error other
than `io.EOF` after the whole lines `pre` and the unterminated data `t`, and the
lines of `pre` are read without error, `read` returns exactly that error; the
store is the one the lines of `pre` left, so the data `t` delivered with the
error is not processed. -/
theorem stream_error_propagates {σ : Type} (P : Collab σ) (c : σ) (pre t : List Char)
    (e : Error) (st : State σ) (he : e ≠ Error.EOF) (hpre : WholeLines pre)
    (ht : '\n' ∉ t)
    (hrun : readFrom P ⟨pre, Error.EOF⟩ ⟨c, [], []⟩ = Outcome.returned (st, none)) :
    read P c ⟨pre ++ t, e⟩ = Outcome.returned (st.c, some e) := by
  apply read_eq P c _ st
  rw [readFrom_append P t e pre.length pre _ (Nat.le_refl _) hpre, hrun]
  simp only []
  rw [readFrom_last P t e st ht]
  simp [he]

/-- C15, with a reader that fails after `[s]`, `a=1` and the unterminated
`b=2`: `read` returns the reader's error, `s.a` is `1` and `b` is not added. -/
theorem stream_error_propagates_witness :
    read specCollab [] ⟨"[s]\na=1\n".toList ++ "b=2".toList, Error.Other 7⟩ =
      Outcome.returned ([("s".toList, [("a".toList, "1".toList)])], some (Error.Other 7)) :=
  stream_error_propagates specCollab [] "[s]\na=1\n".toList "b=2".toList (Error.Other 7)
    ⟨[("s".toList, [("a".toList, "1".toList)])], "s".toList, "a".toList⟩
    (by decide) (by decide) (by decide) (by decide)

/-! ## White space around a line -/

theorem TrimSpace_append_spaces (s ws : List Char) (h : ∀ a ∈ ws, IsSpace a = true) :
    TrimSpace (s ++ ws) = TrimSpace s := by
  induction ws using List.reverseRecOn with
  | nil => simp
  | append_singleton ws a ih =>
    rw [← List.append_assoc, TrimSpace_concat _ a (h a (by simp))]
    exact ih (fun x hx => h x (by simp [hx]))

theorem TrimSpace_spaces_append (ws s : List Char) (h : ∀ a ∈ ws, IsSpace a = true) :
    TrimSpace (ws ++ s) = TrimSpace s := by
  unfold TrimSpace
  rw [List.dropWhile_append_of_pos h]

/-- The loop looks at a line through `TrimSpace` only. -/
theorem read_congr_trim {σ : Type} (P : Collab σ) (c : σ) (pre raw raw1 post : List Char)
    (e : Error) (hpre : WholeLines pre) (hraw : '\n' ∉ raw) (hraw1 : '\n' ∉ raw1)
    (htrim : TrimSpace raw = TrimSpace raw1) :
    read P c ⟨pre ++ (raw ++ '\n' :: post), e⟩ = read P c ⟨pre ++ (raw1 ++ '\n' :: post), e⟩ := by
  unfold read
  rw [readFrom_append P _ e pre.length pre _ (Nat.le_refl _) hpre,
    readFrom_append P _ e pre.length pre _ (Nat.le_refl _) hpre]
  cases readFrom P ⟨pre, Error.EOF⟩ ⟨c, [], []⟩ with
  | returned r =>
    obtain ⟨st, err⟩ := r
    cases err with
    | none =>
      simp only []
      rw [readFrom_line P raw post e st hraw, readFrom_line P raw1 post e st hraw1, htrim]
    | some err => rfl
  | panicked => rfl
  | outOfFuel => rfl

/-- C16: surrounding white space is irrelevant.  Adding (or removing) spaces,
tabs and carriage returns in front of and behind the text of a
newline-terminated line changes neither the error `read` returns nor the store
it leaves. -/
theorem surrounding_whitespace_irrelevant {σ : Type} (P : Collab σ) (c : σ)
    (pre ws1 raw ws2 post : List Char) (e : Error) (hpre : WholeLines pre)
    (hraw : '\n' ∉ raw)
    (h1 : ∀ a ∈ ws1, a = ' ' ∨ a = '\t' ∨ a = '\r')
    (h2 : ∀ a ∈ ws2, a = ' ' ∨ a = '\t' ∨ a = '\r') :
    read P c ⟨pre ++ ((ws1 ++ raw ++ ws2) ++ '\n' :: post), e⟩ =
      read P c ⟨pre ++ (raw ++ '\n' :: post), e⟩ := by
  have hsp : ∀ a : Char, (a = ' ' ∨ a = '\t' ∨ a = '\r') → IsSpace a = true ∧ a ≠ '\n' := by
    intro a ha
    rcases ha with rfl | rfl | rfl <;> decide
  have hnl : '\n' ∉ ws1 ++ raw ++ ws2 := by
    intro hm
    rcases List.mem_append.mp hm with hm1 | hm1
    · rcases List.mem_append.mp hm1 with hm2 | hm2
      · exact (hsp _ (h1 _ hm2)).2 rfl
      · exact hraw hm2
    · exact (hsp _ (h2 _ hm1)).2 rfl
  apply read_congr_trim P c pre _ raw post e hpre hnl hraw
  rw [TrimSpace_append_spaces _ ws2 (fun a ha => (hsp a (h2 a ha)).1),
    TrimSpace_spaces_append ws1 raw (fun a ha => (hsp a (h1 a ha)).1)]

/-- C16, with an indented key/value line and a continuation line that is not
indented: `[s]`, `  a = 1 `, `more` gives the same as `[s]`, `a = 1`, `more`,
namely `s.a = 1\nmore`. -/
theorem surrounding_whitespace_irrelevant_witness :
    read specCollab [] ⟨"[s]\n".toList ++ (("\t  ".toList ++ "a = 1".toList ++ " \r".toList) ++
        '\n' :: "more\n".toList), Error.EOF⟩ =
      read specCollab [] ⟨"[s]\n".toList ++ ("a = 1".toList ++ '\n' :: "more\n".toList),
        Error.EOF⟩ ∧
    read specCollab [] ⟨"[s]\n\t  a = 1 \r\nmore\n".toList, Error.EOF⟩ =
      Outcome.returned ([("s".toList, [("a".toList, "1\nmore".toList)])], none) :=
  ⟨surrounding_whitespace_irrelevant specCollab [] "[s]\n".toList "\t  ".toList
      "a = 1".toList " \r".toList "more\n".toList Error.EOF (by decide) (by decide)
      (by decide) (by decide),
    by decide⟩

/-! ## Lines without a usable delimiter -/

theorem leading_delimiter_class (l : List Char)
    (hd : l.head? = some '=' ∨ l.head? = some ':') :
    ¬ Skipped l ∧ ¬ Bracketed l ∧ IndexAny l ['=', ':'] = 0 := by
  cases l with
  | nil => simp at hd
  | cons d s =>
    simp only [List.head?_cons, Option.some.injEq] at hd
    have h1 : d ≠ '#' ∧ d ≠ ';' ∧ d ≠ '[' ∧ toLowerRune d ≠ 'r' := by
      rcases hd with rfl | rfl <;> decide
    refine ⟨?_, ?_, ?_⟩
    · unfold Skipped
      simp only [List.head?_cons, Option.some.injEq, reduceCtorEq, false_or, h1.1, h1.2.1]
      intro h
      have h2 := congrArg List.head? h
      cases s with
      | nil => simp [ToLower] at h
      | cons b s =>
        cases s with
        | nil => simp [ToLower] at h
        | cons c s =>
          simp [ToLower] at h2
          exact h1.2.2.2 h2
    · unfold Bracketed
      simp [h1.2.2.1]
    · rcases hd with rfl | rfl <;> simp [IndexAny, indexWhere]

/-- C17: a line whose trimmed text begins with `=` or `:` has its first
delimiter at index 0 and is not a key/value line.  When the current section and
the current option are both non-empty the loop appends the line to the current
option as a continuation; otherwise `read` returns the parse error for the
line.  No option with an empty name is written either way. -/
theorem leading_delimiter_line {σ : Type} (P : Collab σ) (raw rest l : List Char) (e : Error)
    (st : State σ) (hraw : '\n' ∉ raw) (hl : TrimSpace raw = l)
    (hd : l.head? = some '=' ∨ l.head? = some ':') :
    IndexAny l ['=', ':'] = 0 ∧
    ((st.sect ≠ [] ∧ st.option ≠ []) →
      readFrom P ⟨raw ++ '\n' :: rest, e⟩ st =
        readFrom P ⟨rest, e⟩
          ⟨P.AddOption st.c st.sect st.option
              (P.RawString st.c st.sect st.option ++ ['\n'] ++ TrimSpace (P.stripComments l)),
            st.sect, st.option⟩) ∧
    (¬ (st.sect ≠ [] ∧ st.option ≠ []) →
      readFrom P ⟨raw ++ '\n' :: rest, e⟩ st = Outcome.returned (st, some (parseError l))) := by
  obtain ⟨h1, h2, h3⟩ := leading_delimiter_class l hd
  refine ⟨h3, ?_, ?_⟩
  · intro h
    exact readFrom_continuation P raw rest l e st hraw hl h1 h2 (by omega) h.1 h.2
  · intro h
    apply readFrom_parse_error P raw rest l e st hraw hl h1 h2 (by omega)
    by_cases hs : st.sect = []
    · exact Or.inl hs
    · right
      by_contra ho
      exact h ⟨hs, ho⟩

/-- C17, at `= x`: after `[s]`, `a=1` the line is appended to `s.a`; without a
current option `read` returns the parse error. -/
theorem leading_delimiter_line_witness :
    (readFrom specCollab ⟨"= x\n".toList, Error.EOF⟩
          ⟨[("s".toList, [("a".toList, "1".toList)])], "s".toList, "a".toList⟩ =
        readFrom specCollab ⟨[], Error.EOF⟩
          ⟨[("s".toList, [("a".toList, "1\n= x".toList)])], "s".toList, "a".toList⟩) ∧
    read specCollab [] ⟨"[s]\na=1\n= x\n".toList, Error.EOF⟩ =
      Outcome.returned ([("s".toList, [("a".toList, "1\n= x".toList)])], none) ∧
    read specCollab [] ⟨"[s]\n: x\n".toList, Error.EOF⟩ =
      Outcome.returned ([("s".toList, [])],
        some (Error.New "could not parse line: : x".toList)) :=
  ⟨(leading_delimiter_line specCollab "= x".toList [] "= x".toList Error.EOF
      ⟨[("s".toList, [("a".toList, "1".toList)])], "s".toList, "a".toList⟩
      (by decide) (by decide) (by decide)).2.1 (by decide),
    by decide, by decide⟩

theorem TrimSpace_spaces (ws : List Char) (h : ∀ a ∈ ws, IsSpace a = true) :
    TrimSpace ws = [] := by
  have := TrimSpace_spaces_append ws [] h
  simpa [TrimSpace] using this

/-- C18: continuation requires a non-empty current section name.  While the
current section name is empty, a line that is not blank, not a comment, not a
section header and has no `=` or `:`, or the first one at index 0, makes `read`
return the parse error, whatever the current option is.  The section name is
empty at the start of `read`, and a header with nothing or only white space
between the brackets makes it empty. -/
theorem continuation_needs_section {σ : Type} (P : Collab σ) (raw rest l : List Char)
    (e : Error) (st : State σ) (hraw : '\n' ∉ raw) (hl : TrimSpace raw = l) :
    (¬ Skipped l → ¬ Bracketed l → IndexAny l ['=', ':'] ≤ 0 → st.sect = [] →
      readFrom P ⟨raw ++ '\n' :: rest, e⟩ st = Outcome.returned (st, some (parseError l))) ∧
    (Bracketed l → (∀ a ∈ l.tail.dropLast, IsSpace a = true) →
      readFrom P ⟨raw ++ '\n' :: rest, e⟩ st =
        readFrom P ⟨rest, e⟩ ⟨P.AddSection st.c [], [], []⟩) := by
  constructor
  · intro h1 h2 h3 h4
    exact readFrom_parse_error P raw rest l e st hraw hl h1 h2 h3 (Or.inl h4)
  · intro h1 h2
    rw [readFrom_section P raw rest l e st hraw hl h1, TrimSpace_spaces _ h2]

/-- C18, at `[]`, `a=1`, `more`; at `[ ]`, `a=1`, `more`; and at `a=1`, `more`:
each time `read` fails on `more` although the option `a` is current. -/
theorem continuation_needs_section_witness :
    (readFrom specCollab ⟨"more\n".toList, Error.EOF⟩
          ⟨[([], [("a".toList, "1".toList)])], [], "a".toList⟩ =
        Outcome.returned (⟨[([], [("a".toList, "1".toList)])], [], "a".toList⟩,
          some (Error.New "could not parse line: more".toList))) ∧
    read specCollab [] ⟨"[]\na=1\nmore\n".toList, Error.EOF⟩ =
      Outcome.returned ([([], [("a".toList, "1".toList)])],
        some (Error.New "could not parse line: more".toList)) ∧
    read specCollab [] ⟨"[ \t]\na=1\nmore\n".toList, Error.EOF⟩ =
      Outcome.returned ([([], [("a".toList, "1".toList)])],
        some (Error.New "could not parse line: more".toList)) ∧
    read specCollab [] ⟨"a=1\nmore\n".toList, Error.EOF⟩ =
      Outcome.returned ([([], [("a".toList, "1".toList)])],
        some (Error.New "could not parse line: more".toList)) :=
  ⟨(continuation_needs_section specCollab "more".toList [] "more".toList Error.EOF
      ⟨[([], [("a".toList, "1".toList)])], [], "a".toList⟩ (by decide) (by decide)).1
      (by decide) (by decide) (by decide) (by decide),
    by decide, by decide, by decide⟩

/-! ## Index safety -/

/-- Index safety of the loop over code points.  The loop body never panics,
whatever the line, and `read` returns on every input.  The guards make each index or slice
expression stay in range: `l[0]` is in range when `l` is not empty, `l[0:3]`
when `len(l) >= 3`, the section slice `l[1:len(l)-1]` when `l` starts with `[`
and ends with `]` (such a line has at least two characters), and `l[0:i]`,
`l[i+1:]` when `i > 0` is the index `IndexAny` returns, which is less than
`len(l)`; outside these guards the expressions can be out of range. -/
theorem read_index_safe {σ : Type} (P : Collab σ) :
    (∀ (st : State σ) (l : List Char), ∃ s, readLine P st l = some s) ∧
    (∀ (c : σ) (rd : Reader), ∃ c1 err, read P c rd = Outcome.returned (c1, err)) ∧
    (∀ l : List Char, index l 0 ≠ none ↔ l ≠ []) ∧
    (∀ l : List Char, slice l 0 3 ≠ none ↔ len l ≥ 3) ∧
    (∀ l : List Char, Bracketed l → 2 ≤ len l ∧ slice l 1 (len l - 1) ≠ none) ∧
    (∀ l : List Char, 0 < IndexAny l ['=', ':'] →
      IndexAny l ['=', ':'] < len l ∧ slice l 0 (IndexAny l ['=', ':']) ≠ none ∧
        slice l (IndexAny l ['=', ':'] + 1) (len l) ≠ none) := by
  refine ⟨?_, ?_, ?_, ?_, ?_, ?_⟩
  · intro st l
    rw [readLine_eq, caseDefault_eq]
    split_ifs <;> exact ⟨_, rfl⟩
  · intro c rd
    obtain ⟨t, e⟩ := rd
    obtain ⟨st1, err, h⟩ := readFrom_total P e t.length t ⟨c, [], []⟩ (Nat.le_refl _)
    exact ⟨st1.c, err, read_eq P c _ st1 err h⟩
  · intro l
    rw [index_zero]
    cases l <;> simp
  · intro l
    unfold slice
    constructor
    · intro h
      by_contra hlt
      apply h
      rw [if_neg]
      intro hc
      exact hlt hc.2.2
    · intro h
      have h3 : (3 : Int) ≤ len l := h
      simp [h3]
  · intro l hb
    have h2 := hb.length_ge
    refine ⟨by simp only [len]; omega, ?_⟩
    rw [slice_inner l h2]
    simp
  · intro l hi
    have hlt : IndexAny l ['=', ':'] < len l := indexWhere_lt _ l
    refine ⟨hlt, ?_, ?_⟩
    · rw [slice_zero l _ (by omega) (by omega)]
      simp
    · rw [slice_to_end l _ (by omega) (by omega)]
      simp

/-! ## Normalised names -/

theorem getLast?_dropWhile (p : Char → Bool) (l : List Char) (h : l.dropWhile p ≠ []) :
    (l.dropWhile p).getLast? = l.getLast? := by
  induction l with
  | nil => simp at h
  | cons a l ih =>
    by_cases ha : p a = true
    · simp only [List.dropWhile_cons, ha, if_true] at h ⊢
      have hl : l ≠ [] := by
        intro e
        simp [e] at h
      rw [ih h, getLast?_cons_of_ne_nil a l hl]
    · simp [List.dropWhile_cons, ha]

theorem head?_dropWhile_all (p : Char → Bool) (l : List Char) :
    (l.dropWhile p).head?.all (fun a => !p a) = true := by
  induction l with
  | nil => rfl
  | cons a l ih =>
    by_cases ha : p a = true
    · simpa [List.dropWhile_cons, ha] using ih
    · simp [List.dropWhile_cons, ha]

/-- The result of `TrimSpace` has no leading and no trailing white space. -/
theorem trimmed_TrimSpace (s : List Char) : Trimmed (TrimSpace s) := by
  unfold Trimmed TrimSpace
  rw [List.head?_reverse, List.getLast?_reverse]
  refine ⟨?_, head?_dropWhile_all IsSpace _⟩
  by_cases h : List.dropWhile IsSpace (List.dropWhile IsSpace s).reverse = []
  · simp [h]
  · rw [getLast?_dropWhile IsSpace _ h, List.getLast?_reverse]
    exact head?_dropWhile_all IsSpace s

theorem mem_TrimSpace (s : List Char) (a : Char) (h : a ∈ TrimSpace s) : a ∈ s := by
  unfold TrimSpace at h
  rw [List.mem_reverse] at h
  have h1 := (List.dropWhile_sublist IsSpace).subset h
  rw [List.mem_reverse] at h1
  exact (List.dropWhile_sublist IsSpace).subset h1

theorem TrimSpace_ne_nil (x : List Char) (a : Char) (hx : x.head? = some a)
    (ha : IsSpace a = false) : TrimSpace x ≠ [] := by
  cases x with
  | nil => simp at hx
  | cons b x =>
    simp only [List.head?_cons, Option.some.injEq] at hx
    subst hx
    unfold TrimSpace
    simp only [List.dropWhile_cons, ha, Bool.false_eq_true, if_false, ne_eq,
      List.reverse_eq_nil_iff]
    rw [List.dropWhile_eq_nil_iff]
    intro hall
    have := hall b (by simp)
    rw [ha] at this
    exact absurd this (by decide)

theorem take_indexWhere (p : Char → Bool) (l : List Char) :
    ∀ a ∈ l.take (indexWhere p l).toNat, p a = false := by
  induction l with
  | nil => simp
  | cons b l ih =>
    intro a ha
    simp only [indexWhere] at ha
    by_cases hb : p b = true
    · simp [hb] at ha
    · simp only [hb, Bool.false_eq_true, if_false] at ha
      by_cases hneg : indexWhere p l < 0
      · simp [hneg] at ha
      · simp only [hneg, if_false] at ha
        have hge : 0 ≤ indexWhere p l := by omega
        have e : (indexWhere p l + 1).toNat = (indexWhere p l).toNat + 1 := by omega
        rw [e, List.take_succ_cons] at ha
        rcases List.mem_cons.mp ha with h1 | h1
        · rw [h1]
          simpa using hb
        · exact ih a h1

/-- The option name of a key/value line: non-empty, trimmed, free of delimiters. -/
theorem option_name_normalised (l : List Char) (hl : Trimmed l)
    (hi : 0 < IndexAny l ['=', ':']) :
    TrimSpace (l.take (IndexAny l ['=', ':']).toNat) ≠ [] ∧
      '=' ∉ TrimSpace (l.take (IndexAny l ['=', ':']).toNat) ∧
      ':' ∉ TrimSpace (l.take (IndexAny l ['=', ':']).toNat) := by
  have hno := take_indexWhere (fun a => ['=', ':'].contains a) l
  refine ⟨?_, ?_, ?_⟩
  · cases l with
    | nil => simp [IndexAny, indexWhere] at hi
    | cons b l =>
      have hb : IsSpace b = false := by
        have := hl.1
        simpa using this
      have e : ∃ k, (IndexAny (b :: l) ['=', ':']).toNat = k + 1 :=
        ⟨(IndexAny (b :: l) ['=', ':']).toNat - 1, by omega⟩
      obtain ⟨k, hk⟩ := e
      rw [hk, List.take_succ_cons]
      exact TrimSpace_ne_nil _ b rfl hb
  · intro h
    have := hno _ (mem_TrimSpace _ _ h)
    simp at this
  · intro h
    have := hno _ (mem_TrimSpace _ _ h)
    simp at this

/-- C20: names written by the parser are normalised.  On a key/value line the
option name passed to `AddOption` is non-empty, has no leading or trailing
white space and contains neither `=` nor `:`, and the value has no leading or
trailing white space; on a section header the name passed to `AddSection` has
no leading or trailing white space. -/
theorem written_names_normalised {σ : Type} (P : Collab σ) (raw rest l : List Char)
    (e : Error) (st : State σ) (hraw : '\n' ∉ raw) (hl : TrimSpace raw = l) :
    (¬ Skipped l → ¬ Bracketed l → 0 < IndexAny l ['=', ':'] →
      readFrom P ⟨raw ++ '\n' :: rest, e⟩ st =
          readFrom P ⟨rest, e⟩
            ⟨P.AddOption st.c st.sect (TrimSpace (l.take (IndexAny l ['=', ':']).toNat))
                (TrimSpace (P.stripComments (l.drop ((IndexAny l ['=', ':']).toNat + 1)))),
              st.sect, TrimSpace (l.take (IndexAny l ['=', ':']).toNat)⟩ ∧
        TrimSpace (l.take (IndexAny l ['=', ':']).toNat) ≠ [] ∧
        Trimmed (TrimSpace (l.take (IndexAny l ['=', ':']).toNat)) ∧
        '=' ∉ TrimSpace (l.take (IndexAny l ['=', ':']).toNat) ∧
        ':' ∉ TrimSpace (l.take (IndexAny l ['=', ':']).toNat) ∧
        Trimmed (TrimSpace (P.stripComments (l.drop ((IndexAny l ['=', ':']).toNat + 1))))) ∧
    (Bracketed l →
      readFrom P ⟨raw ++ '\n' :: rest, e⟩ st =
          readFrom P ⟨rest, e⟩
            ⟨P.AddSection st.c (TrimSpace l.tail.dropLast), TrimSpace l.tail.dropLast, []⟩ ∧
        Trimmed (TrimSpace l.tail.dropLast)) := by
  constructor
  · intro h1 h2 h3
    have hn := option_name_normalised l (hl ▸ trimmed_TrimSpace raw) h3
    exact ⟨readFrom_key_value P raw rest l e st hraw hl h1 h2 h3, hn.1, trimmed_TrimSpace _,
      hn.2.1, hn.2.2, trimmed_TrimSpace _⟩
  · intro h
    exact ⟨readFrom_section P raw rest l e st hraw hl h, trimmed_TrimSpace _⟩

/-- C20, at `  my key  =  some value  # note` and at `[  my section  ]`: the
name written is `my key`, the value `some value`, the section `my section`. -/
theorem written_names_normalised_witness :
    (readFrom specCollab ⟨"  my key  =  some value  # note\n".toList, Error.EOF⟩
          ⟨[], "s".toList, []⟩ =
        readFrom specCollab ⟨[], Error.EOF⟩
          ⟨[("s".toList, [("my key".toList, "some value".toList)])], "s".toList,
            "my key".toList⟩ ∧
      "my key".toList ≠ [] ∧ Trimmed "my key".toList ∧ '=' ∉ "my key".toList ∧
      ':' ∉ "my key".toList ∧ Trimmed "some value".toList) ∧
    (readFrom specCollab ⟨"[  my section  ]\n".toList, Error.EOF⟩ ⟨[], [], []⟩ =
        readFrom specCollab ⟨[], Error.EOF⟩
          ⟨[("my section".toList, [])], "my section".toList, []⟩ ∧
      Trimmed "my section".toList) :=
  ⟨(written_names_normalised specCollab "  my key  =  some value  # note".toList []
      "my key  =  some value  # note".toList Error.EOF ⟨[], "s".toList, []⟩
      (by decide) (by decide)).1 (by decide) (by decide) (by decide),
    (written_names_normalised specCollab "[  my section  ]".toList []
      "[  my section  ]".toList Error.EOF ⟨[], [], []⟩ (by decide) (by decide)).2
      (by decide)⟩

/-! ## Index safety over bytes -/

namespace Bytes

theorem index_zero_bytes (l : List Nat) : index l 0 = l.head? := by
  cases l <;> simp [index, len]

theorem index_last_bytes (l : List Nat) (h : l ≠ []) :
    index l (len l - 1) = l.getLast? := by
  have hpos : 0 < l.length := List.length_pos.mpr h
  have h1 : (0 : Int) ≤ (l.length : Int) - 1 ∧ (l.length : Int) - 1 < (l.length : Int) := by
    omega
  have h2 : ((l.length : Int) - 1).toNat = l.length - 1 := by omega
  simp only [index, len, h1, h2]
  simp [List.getLast?_eq_getElem?]

theorem slice_ne_none_iff (l : List Nat) (lo hi : Int) :
    slice l lo hi ≠ none ↔ (0 ≤ lo ∧ lo ≤ hi ∧ hi ≤ len l) := by
  unfold slice
  split <;> simp_all

theorem index_ne_none_iff (l : List Nat) (i : Int) :
    index l i ≠ none ↔ (0 ≤ i ∧ i < len l) := by
  unfold index
  split
  · rename_i h
    have h1 : i.toNat < l.length := by
      have := h.2
      simp only [len] at this
      omega
    simp [h, List.getElem?_eq_getElem h1]
  · rename_i h
    simp [h]

theorem indexWhere_lt_bytes (p : Nat → Bool) (s : List Nat) :
    indexWhere p s < s.length := by
  induction s with
  | nil => simp [indexWhere]
  | cons a s ih =>
    simp only [indexWhere, List.length_cons]
    split
    · omega
    · split <;> omega

theorem splitAfter_length_bytes (d : Nat) (s l r : List Nat)
    (h : splitAfter d s = some (l, r)) : r.length < s.length := by
  induction s generalizing l with
  | nil => simp [splitAfter] at h
  | cons a s ih =>
    simp only [splitAfter] at h
    split at h
    · simp at h; simp [h.2]
    · cases hs : splitAfter d s with
      | none => simp [hs] at h
      | some q =>
        obtain ⟨l1, r1⟩ := q
        simp [hs] at h
        have := ih l1 (by rw [hs, h.2])
        simp; omega

theorem caseBlankOrComment_bytes (l : List Nat) :
    ∃ b, caseBlankOrComment l = some b ∧ (l = [] → b = true) := by
  cases l with
  | nil => exact ⟨true, by simp [caseBlankOrComment, cor, len], fun _ => rfl⟩
  | cons a s =>
    have hz : (len (a :: s) == 0) = false := by
      simp only [len, List.length_cons, beq_eq_false_iff_ne]
      omega
    simp only [caseBlankOrComment, index_zero_bytes, hz, List.head?_cons, Option.map_some',
      cor]
    cases (a == Char.toNat '#') <;> simp

theorem caseRem_bytes (L : Lib) (l : List Nat) : ∃ b, caseRem L l = some b := by
  rw [← Option.isSome_iff_exists]
  unfold caseRem
  by_cases h : len l ≥ 3
  · have hs : slice l 0 3 ≠ none := (slice_ne_none_iff l 0 3).mpr ⟨by omega, by omega, h⟩
    obtain ⟨s, hq⟩ := Option.ne_none_iff_exists'.mp hs
    simp [cand, h, hq]
  · simp [cand, h]

theorem caseSection_bytes (l : List Nat) (h : l ≠ []) :
    ∃ b, caseSection l = some b ∧ (b = true → 2 ≤ len l) := by
  obtain ⟨a, ha⟩ : ∃ a, l.head? = some a := by
    cases l with
    | nil => exact absurd rfl h
    | cons a s => exact ⟨a, rfl⟩
  obtain ⟨b, hb⟩ : ∃ b, l.getLast? = some b := by
    cases hl : l.getLast? with
    | none => simp at hl; exact absurd hl h
    | some b => exact ⟨b, rfl⟩
  simp only [caseSection, index_zero_bytes, index_last_bytes l h, ha, hb, Option.map_some']
  cases hA : (a == Char.toNat '[') with
  | false => exact ⟨false, rfl, fun hf => by cases hf⟩
  | true =>
    cases hB : (b == Char.toNat ']') with
    | false => exact ⟨false, rfl, fun hf => by cases hf⟩
    | true =>
      refine ⟨true, rfl, fun _ => ?_⟩
      have h1 : a = Char.toNat '[' := eq_of_beq hA
      have h2 : b = Char.toNat ']' := eq_of_beq hB
      match l, ha, hb with
      | [x], ha, hb =>
        simp only [List.head?_cons, Option.some.injEq, List.getLast?_singleton] at ha hb
        rw [ha, h1] at hb
        rw [← hb] at h2
        exact absurd h2 (by decide)
      | _ :: _ :: _, _, _ =>
        simp only [len, List.length_cons]
        omega

theorem caseDefault_bytes {σ : Type} (L : Lib) (P : Collab σ) (st : State σ) (l : List Nat) :
    ∃ s, caseDefault L P st l = some s := by
  have hlt : IndexAny l (ascii "=:") < len l := indexWhere_lt_bytes _ l
  rw [← Option.isSome_iff_exists]
  unfold caseDefault
  by_cases hi : IndexAny l (ascii "=:") > 0
  · have h1 : slice l 0 (IndexAny l (ascii "=:")) ≠ none :=
      (slice_ne_none_iff _ _ _).mpr ⟨by omega, by omega, by omega⟩
    have h2 : slice l (IndexAny l (ascii "=:") + 1) (len l) ≠ none :=
      (slice_ne_none_iff _ _ _).mpr ⟨by omega, by omega, by omega⟩
    obtain ⟨name, hq1⟩ := Option.ne_none_iff_exists'.mp h1
    obtain ⟨rest, hq2⟩ := Option.ne_none_iff_exists'.mp h2
    simp [hi, hq1, hq2]
  · by_cases hc : st.sect ≠ [] ∧ st.option ≠ []
    · simp [hi, hc]
    · simp only [hi, if_false, hc, Option.isSome_some]

/-- The loop body never panics, whatever the bytes of the line. -/
theorem readLine_bytes {σ : Type} (L : Lib) (P : Collab σ) (st : State σ) (l : List Nat) :
    ∃ s, readLine L P st l = some s := by
  unfold readLine
  obtain ⟨b1, h1, hnil⟩ := caseBlankOrComment_bytes l
  rw [h1]
  cases b1 with
  | true => exact ⟨_, rfl⟩
  | false =>
    have hne : l ≠ [] := fun e => by cases hnil e
    obtain ⟨b2, h2⟩ := caseRem_bytes L l
    rw [h2]
    cases b2 with
    | true => exact ⟨_, rfl⟩
    | false =>
      obtain ⟨b3, h3, hlen⟩ := caseSection_bytes l hne
      rw [h3]
      cases b3 with
      | true =>
        have hl := hlen rfl
        have hs : slice l 1 (len l - 1) ≠ none :=
          (slice_ne_none_iff _ _ _).mpr ⟨by omega, by omega, by omega⟩
        cases hq : slice l 1 (len l - 1) with
        | none => exact absurd hq hs
        | some name => exact ⟨_, rfl⟩
      | false => exact caseDefault_bytes L P st l

/-- With more fuel than bytes the loop returns. -/
theorem readLoop_bytes {σ : Type} (L : Lib) (P : Collab σ) :
    ∀ (n : Nat) (buf : Reader) (st : State σ), buf.data.length < n →
      ∃ r, readLoop L P n buf st = Outcome.returned r := by
  intro n
  induction n with
  | zero => intro buf st h; omega
  | succ n ih =>
    intro buf st hn
    simp only [readLoop, ReadString]
    cases hs : splitAfter (Char.toNat '\n') buf.data with
    | none =>
      simp only []
      split <;> exact ⟨_, rfl⟩
    | some q =>
      obtain ⟨l, r⟩ := q
      have hlen := splitAfter_length_bytes _ _ _ _ hs
      simp only []
      obtain ⟨s, hs1⟩ := readLine_bytes L P st (L.TrimSpace l)
      rw [hs1]
      cases s with
      | ret err => exact ⟨_, rfl⟩
      | next st1 => exact ih ⟨r, buf.err⟩ st1 (by simp; omega)

/-- C19: `read` is index-safe on every input, taken as bytes.  The loop body
never panics, whatever the bytes of the line, and `read` returns on every
reader.  Each index or slice expression is in range exactly under its bound:
`l[0]` when `l` is not empty, `l[0:3]` when `len(l) >= 3`, `l[len(l)-1]` when
`l` is not empty, the section slice `l[1:len(l)-1]` when `len(l) >= 2`, which
holds when `l` starts with `[` and ends with `]`, and `l[0:i]`, `l[i+1:]` when
`0 < i < len(l)`, which holds for a positive result `i` of `IndexAny`.  On the
bytes of `é=` the length is 3 and `l[0:3]` is in range; on `é=1` the index of
the delimiter is 2. -/
theorem read_index_safe_bytes {σ : Type} (L : Lib) (P : Collab σ) :
    (∀ (st : State σ) (l : List Nat), ∃ s, readLine L P st l = some s) ∧
    (∀ (c : σ) (rd : Reader), ∃ c1 err, read L P c rd = Outcome.returned (c1, err)) ∧
    (∀ l : List Nat, index l 0 ≠ none ↔ l ≠ []) ∧
    (∀ l : List Nat, slice l 0 3 ≠ none ↔ len l ≥ 3) ∧
    (∀ l : List Nat, index l (len l - 1) ≠ none ↔ l ≠ []) ∧
    (∀ l : List Nat, slice l 1 (len l - 1) ≠ none ↔ len l ≥ 2) ∧
    (∀ l : List Nat, index l 0 = some (Char.toNat '[') →
      index l (len l - 1) = some (Char.toNat ']') → len l ≥ 2) ∧
    (∀ (l : List Nat) (i : Int), (slice l 0 i ≠ none ∧ slice l (i + 1) (len l) ≠ none) ↔
      (0 ≤ i ∧ i < len l)) ∧
    (∀ l : List Nat, -1 ≤ IndexAny l (ascii "=:") ∧ IndexAny l (ascii "=:") < len l) ∧
    (len [195, 169, 61] = 3 ∧ slice [195, 169, 61] 0 3 = some [195, 169, 61] ∧
      IndexAny [195, 169, 61, 49] (ascii "=:") = 2) := by
  refine ⟨readLine_bytes L P, ?_, ?_, ?_, ?_, ?_, ?_, ?_, ?_, ?_⟩
  · intro c rd
    obtain ⟨r, h⟩ := readLoop_bytes L P (rd.data.length + 1) rd ⟨c, [], []⟩ (by omega)
    obtain ⟨st, err⟩ := r
    exact ⟨st.c, err, by simp [read, h]⟩
  · intro l
    rw [index_zero_bytes]
    cases l <;> simp
  · intro l
    rw [slice_ne_none_iff]
    constructor
    · intro h
      exact h.2.2
    · intro h
      exact ⟨by omega, by omega, h⟩
  · intro l
    rw [index_ne_none_iff]
    cases l with
    | nil => simp [len]
    | cons a s =>
      simp only [len, List.length_cons, ne_eq, reduceCtorEq, not_false_eq_true, iff_true]
      omega
  · intro l
    rw [slice_ne_none_iff]
    constructor
    · intro h
      omega
    · intro h
      omega
  · intro l h1 h2
    have hne : l ≠ [] := by
      intro e
      simp [e, index, len] at h1
    obtain ⟨b, hb, hlen⟩ := caseSection_bytes l hne
    apply hlen
    simp [caseSection, h1, h2, cand] at hb
    exact hb
  · intro l i
    rw [slice_ne_none_iff, slice_ne_none_iff]
    constructor
    · intro h
      omega
    · intro h
      omega
  · intro l
    refine ⟨?_, indexWhere_lt_bytes _ l⟩
    unfold IndexAny
    generalize (fun a => (ascii "=:").contains a) = p
    induction l with
    | nil => simp [indexWhere]
    | cons a s ih =>
      simp only [indexWhere]
      split
      · omega
      · split <;> omega
  · decide

end Bytes

end Config
